import Mathlib

/-!
Verification of the `se_gps.py` coordinate-clustering pipeline.

Shallow embedding conventions:
* Python strings are embedded as `List Char` (`Str`); inputs are single
  text lines, so they are newline-free, and labels are ASCII.
* Python floats are embedded as exact rationals `ℚ`; `round` is Python's
  round-half-to-even.
* Python dicts holding GPS records become the `Coordinate` structure; the
  optional `duplicate` key (absent ⇔ `False`) becomes a `Bool` field, and
  the optional `resources` key of cluster records becomes an
  `Option (List Coordinate)` field (key absent ⇔ `none`).
* The interactive prompts (`input()`) are decision oracles passed in as
  function arguments, and the random cluster-name generator is passed in
  as a name stream, as the spec's design notes prescribe for testability.
* The module-level configuration tables `SECTORS` and `ORES` are embedded
  as explicit constants; `normalize_name`, which consults both tables, is
  parameterised over them so that it can also be evaluated at the
  configurations that the spec's scenarios posit.
-/

/-- Python strings, as lists of characters. -/
abbrev Str := List Char

/-- Python's `str.upper` on an ASCII character: map `'a'..'z'` to
`'A'..'Z'`, leave everything else unchanged. -/
def upChar (c : Char) : Char :=
  if 'a' ≤ c ∧ c ≤ 'z' then Char.ofNat (c.toNat - 32) else c

/-- Python's `str.upper` on an ASCII string. -/
def upStr (s : Str) : Str := s.map upChar

/-- Python's `\s` (ASCII range): space, tab, newline, vertical tab,
form feed, carriage return. -/
def pyIsSpace (c : Char) : Bool :=
  c = ' ' ∨ c = '\t' ∨ c = '\n' ∨ c = '\x0b' ∨ c = '\x0c' ∨ c = '\r'

/-- Python's `\d` (ASCII range): `'0'..'9'`. -/
def pyIsDigit (c : Char) : Bool := '0' ≤ c ∧ c ≤ '9'

/-- The character class `[A-Z]`. -/
def isAZ (c : Char) : Bool := 'A' ≤ c ∧ c ≤ 'Z'

/-- Python's `str.strip()`: remove leading and trailing whitespace. -/
def pyStrip (s : Str) : Str :=
  ((s.dropWhile pyIsSpace).reverse.dropWhile pyIsSpace).reverse

/-- One GPS record, as produced by `parse_coordinate` (src/se_gps.py:344):
the dict keys `name`, `x`, `y`, `z`, `colour`, `notes`, `sector` plus the
optional `duplicate` flag (key absent ⇔ `false`, see `is_duplicate`,
src/se_gps.py:526). -/
structure Coordinate where
  name : Str
  x : ℚ
  y : ℚ
  z : ℚ
  colour : Str
  notes : Str
  sector : Str
  duplicate : Bool := false
deriving DecidableEq, Repr

/-- The ore vocabulary `ORES` (src/se_gps.py:173), in priority order. -/
def ORES : List Str :=
  [['U'], ['P','T'], ['A','U'], ['A','G'], ['I','C','E'],
   ['M','G'], ['C','O'], ['N','I'], ['S','I'], ['F','E']]

/-- One entry of the `SECTORS` table after `process_sectors`
(src/se_gps.py:54,288): only the fields the verified claims consult
(abbreviation and display header) are carried. -/
structure Sector where
  abbr : Str
  header : Str
deriving DecidableEq, Repr

/-- The `SECTORS` table (src/se_gps.py:54), in priority order:
abbreviation and display header of each zone. -/
def SECTORS : List Sector :=
  [⟨"AP".data, "Auroria Planet PvE".data⟩,
   ⟨"AS".data, "Auroria Space PvE".data⟩,
   ⟨"KH".data, "K.O.T.H. PvP".data⟩,
   ⟨"KP".data, "Korrath Planet PvP".data⟩,
   ⟨"KS".data, "Korrath Space PvP".data⟩,
   ⟨"PP".data, "Paratha Planet PvE".data⟩,
   ⟨"PS".data, "Paratha Space PvE".data⟩,
   ⟨"RP".data, "Ravarna Planet PvP".data⟩,
   ⟨"RS".data, "Ravarna Space PvP".data⟩,
   ⟨"UP".data, "Umbra Planet Pv?".data⟩,
   ⟨"US".data, "Umbra Space Pv?".data⟩,
   ⟨"VP".data, "Volcanis Planet PvP".data⟩,
   ⟨"VS".data, "Volcanis Space PvP".data⟩,
   ⟨"ZP".data, "Zarion Planet PvE".data⟩,
   ⟨"ZS".data, "Zarion Space PvE".data⟩,
   ⟨"HB".data, "The Hub PvE".data⟩,
   ⟨"RM".data, "Roach Motel PvE".data⟩,
   ⟨"GZ".data, "Goldilocks Zone PvE".data⟩,
   ⟨"RH".data, "Roach Hostel PvE".data⟩,
   ⟨"CB".data, "Contested Barrens PvP".data⟩]

/-- `sector_index` (src/se_gps.py:266): index of the first table entry
with the given abbreviation, `-1` when absent. -/
def sector_index (sector_abbr : Str) : ℤ :=
  go SECTORS 0
where
  go : List Sector → ℤ → ℤ
    | [], _ => -1
    | s :: rest, i => if s.abbr = sector_abbr then i else go rest (i + 1)

/-- `valid_sector` (src/se_gps.py:882): whether an abbreviation occurs in
the `SECTORS` table; parameterised over the table's abbreviation column. -/
def valid_sector (abbrs : List Str) (sector_abbr : Str) : Bool :=
  sector_abbr ∈ abbrs

/-- The abbreviation column of `SECTORS`. -/
def sectorAbbrs : List Str := SECTORS.map Sector.abbr

/-- Python's `round` on an exact rational: round half to even. -/
def pyRound (q : ℚ) : ℤ :=
  let f := ⌊q⌋
  let r := q - f
  if r < 1/2 then f
  else if 1/2 < r then f + 1
  else if f % 2 = 0 then f else f + 1

/-- Python's `round(x, 2)`: round half to even at two decimal places. -/
def pyRound2 (q : ℚ) : ℚ := (pyRound (100 * q) : ℚ) / 100

/-- `round(math.sqrt(q))` computed exactly on a nonnegative rational:
the nonnegative integer nearest to `√q`, halves to even.  Writing
`m = ⌊4q⌋` and `k = Nat.sqrt m`, one has `k = ⌊√(4q)⌋ = ⌊2√q⌋`, so
`(k+1)/2 = ⌊(2√q+1)/2⌋ = round(√q)` except at exact ties `√q = n + 1/2`
(equivalently `4q = (2n+1)²`), where Python's round-half-to-even picks
`n` when `n` is even. -/
def roundSqrt (q : ℚ) : ℕ :=
  if 4 * q = (Nat.sqrt (⌊4 * q⌋).toNat : ℚ) ^ 2 ∧
      Nat.sqrt (⌊4 * q⌋).toNat % 2 = 1 ∧ Nat.sqrt (⌊4 * q⌋).toNat / 2 % 2 = 0
  then Nat.sqrt (⌊4 * q⌋).toNat / 2
  else (Nat.sqrt (⌊4 * q⌋).toNat + 1) / 2

/-- `check_distance` (src/se_gps.py:502): Euclidean distance between two
records, rounded to the nearest whole meter. -/
def check_distance (a b : Coordinate) : ℕ :=
  roundSqrt ((b.x - a.x) ^ 2 + (b.y - a.y) ^ 2 + (b.z - a.z) ^ 2)

/-- The exact squared Euclidean distance between two records. -/
def sqDist (a b : Coordinate) : ℚ :=
  (b.x - a.x) ^ 2 + (b.y - a.y) ^ 2 + (b.z - a.z) ^ 2

/-- A concrete record at the origin, for counterexamples. -/
def cexOrigin : Coordinate :=
  { name := "A".data, x := 0, y := 0, z := 0,
    colour := "#FFFFFF00".data, notes := [], sector := "ZS".data }

/-- A concrete record 0.25 m from `cexOrigin` on the x axis. -/
def cexQuarter : Coordinate :=
  { cexOrigin with name := "B".data, x := 1/4 }

/-- A concrete record 50 m from `cexOrigin` on the x axis. -/
def cexNear : Coordinate :=
  { cexOrigin with name := "C".data, x := 50 }

/-- Placeholder record for out-of-range list reads (never hit on the
index ranges the pipeline uses). -/
def defaultCoordinate : Coordinate :=
  { name := [], x := 0, y := 0, z := 0, colour := [], notes := [],
    sector := [] }

/-- `is_duplicate` (src/se_gps.py:526): the `duplicate` dict key, absent
(modelled `false`) unless set. -/
def is_duplicate (c : Coordinate) : Bool := c.duplicate

/-- Set the `duplicate` flag of the record at position `j` (Python
mutates the dict object in place; records are addressed by their list
position, which never changes). -/
def setDuplicateAt : List Coordinate → ℕ → List Coordinate
  | [], _ => []
  | c :: rest, 0 => { c with duplicate := true } :: rest
  | c :: rest, j + 1 => c :: setDuplicateAt rest j

/-- `find_duplicates` (src/se_gps.py:465) for the anchor record `c`
sitting at position `i` of the record list `st`: walk all records in
order, skipping any record structurally equal to the anchor (the
source's `coordinate == test_coordinate` dict comparison), any record
already marked duplicate, and any record in a different sector; collect
positions and distances of those strictly below `min_distance`; when any
are found, prepend the anchor with distance 0. -/
def find_duplicates (i : ℕ) (c : Coordinate) (st : List Coordinate)
    (min_distance : ℕ) : List (ℕ × ℕ) :=
  let near := st.enum.filterMap (fun jd =>
    let d := jd.2
    if d = c then none
    else if is_duplicate d then none
    else if d.sector ≠ c.sector then none
    else if check_distance c d < min_distance then
      some (jd.1, check_distance c d)
    else none)
  if near.isEmpty then [] else (i, 0) :: near

/-- `mark_duplicates` (src/se_gps.py:581): mark every group member except
the one at `skip_index` as duplicate.  The group carries list positions
so that the in-place dict mutation can be replayed on the list. -/
def mark_duplicates (st : List Coordinate) (group : List (ℕ × ℕ))
    (skip_index : ℕ) : List Coordinate :=
  go st group 0
where
  go : List Coordinate → List (ℕ × ℕ) → ℕ → List Coordinate
    | st, [], _ => st
    | st, (j, _) :: rest, k =>
      go (if k = skip_index then st else setDuplicateAt st j) rest (k + 1)

/-- The acceptance test of `handle_duplicates`'s retry loop
(src/se_gps.py:566): after the enumeration loop the local `index` equals
`len(duplicates) + 1`, so a parsed response `r` passes the check
`response >= 1 and response <= index` exactly when
`1 ≤ r ≤ len(duplicates) + 1`. -/
def responseAccepted (numDuplicates : ℕ) (response : ℤ) : Bool :=
  1 ≤ response ∧ response ≤ numDuplicates + 1

/-- The retry loop of `handle_duplicates` (src/se_gps.py:546): query the
response stream until a response passes `responseAccepted` (un-parseable
input is modelled as an arbitrary rejected integer).  The loop has no
give-up path; `fuel` bounds how far the stream is searched, `none`
meaning no accepted response was found within the bound. -/
def firstAcceptedResponse (numDuplicates : ℕ) (resps : ℕ → ℤ) :
    ℕ → ℕ → Option ℤ
  | _, 0 => none
  | k, fuel + 1 =>
    if responseAccepted numDuplicates (resps k) then some (resps k)
    else firstAcceptedResponse numDuplicates resps (k + 1) fuel

/-- `handle_duplicates` (src/se_gps.py:546) with its interactive prompt
replayed from a response stream: the first accepted response `r` leads to
`mark_duplicates(duplicates, r - 1)`. -/
def handleDuplicatesRetry (resps : ℕ → ℤ) (st : List Coordinate)
    (group : List (ℕ × ℕ)) (fuel : ℕ) : List Coordinate :=
  match firstAcceptedResponse group.length resps 0 fuel with
  | some r => mark_duplicates st group (r - 1).toNat
  | none => st

/-- `handle_duplicates` (src/se_gps.py:546) with the prompt abstracted as
a decision oracle that directly supplies the accepted 1-based response
for the displayed (record, distance) list, as the spec's design notes
prescribe; the group members except the chosen one are marked
duplicate. -/
def handle_duplicates (oracle : List (Coordinate × ℕ) → ℕ)
    (st : List Coordinate) (group : List (ℕ × ℕ)) : List Coordinate :=
  mark_duplicates st group
    (oracle (group.map (fun jd => (st.getD jd.1 defaultCoordinate, jd.2))) - 1)

/-- `deduplicate_coordinates` (src/se_gps.py:432), marking pass: walk the
list in order; skip records already marked duplicate; for each remaining
anchor collect its duplicate group and, when non-empty, resolve it
through the oracle. -/
def dedupPass (oracle : List (Coordinate × ℕ) → ℕ) (min_distance : ℕ)
    (st : List Coordinate) : List Coordinate :=
  (List.range st.length).foldl (fun st i =>
    let c := st.getD i defaultCoordinate
    if is_duplicate c then st
    else
      let dups := find_duplicates i c st min_distance
      if 0 < dups.length then handle_duplicates oracle st dups else st) st

/-- `deduplicate_coordinates` (src/se_gps.py:432): one marking pass, then
keep the records not marked duplicate. -/
def deduplicate_coordinates (oracle : List (Coordinate × ℕ) → ℕ)
    (coordinates : List Coordinate) (min_distance : ℕ) : List Coordinate :=
  (dedupPass oracle min_distance coordinates).filter
    (fun c => ¬ is_duplicate c)

/-- `make_names_unique` (src/se_gps.py:903): walk the resources in
order, keeping a dict from name to occurrence counter (modelled as a
lookup function).  A first occurrence leaves the record unchanged and
installs counter 2; a later occurrence is renamed to
`f'{name} _{name_hash[name]}'` — the name, a space, an underscore and
the counter — and the counter increments. -/
def make_names_unique (resources : List Coordinate) : List Coordinate :=
  go (fun _ => none) resources
where
  go (h : Str → Option ℕ) : List Coordinate → List Coordinate
    | [] => []
    | r :: rest =>
      match h r.name with
      | some k =>
        { r with name := r.name ++ ' ' :: '_' :: (Nat.repr k).data } ::
          go (fun n => if n = r.name then some (k + 1) else h n) rest
      | none =>
        r :: go (fun n => if n = r.name then some 2 else h n) rest

/-- Number of records in `l` whose name is `n`. -/
def countName (n : Str) (l : List Coordinate) : ℕ :=
  (l.filter (fun p => p.name = n)).length

/-- Rename a record given the number `k` of earlier records carrying the
same original name: unchanged when `k = 0`, otherwise the
space-underscore-counter suffix with counter `k + 1`. -/
def renameAt (r : Coordinate) (k : ℕ) : Coordinate :=
  if k = 0 then r
  else { r with name := r.name ++ ' ' :: '_' :: (Nat.repr (k + 1)).data }

/-- Closed-form description of the uniqueness pass, following the spec's
words (§4.6) with the separator the code actually uses: the `i`-th
record is renamed according to the number of earlier records with the
same original name. -/
def uniqueNamesSpec (resources : List Coordinate) : List Coordinate :=
  resources.mapIdx (fun i r => renameAt r (countName r.name (resources.take i)))

/-- The occurrence-counter dict after processing the records `pre`: a
name that has appeared `k ≥ 1` times maps to `k + 1`, an unseen name is
absent. -/
def hashOf (pre : List Coordinate) : Str → Option ℕ :=
  fun n => if countName n pre = 0 then none else some (countName n pre + 1)

/-- `CLUSTER_PREFIX` (src/se_gps.py:186). -/
def clusterMarker : Str := "Cluster".data

/-- `DUPLICATE_RESOURCE_DISTANCE_METERS` (src/se_gps.py:189). -/
def DUPLICATE_RESOURCE_DISTANCE_METERS : ℕ := 2 * 1000

/-- `DUPLICATE_CLUSTER_DISTANCE_METERS` (src/se_gps.py:192), also the
cluster-assignment radius in `cluster_coordinates`. -/
def DUPLICATE_CLUSTER_DISTANCE_METERS : ℕ := 500 * 1000

/-- `sort_coordinates` (src/se_gps.py:603): records whose name starts
with the cluster prefix become cluster-markers, the rest
resource-markers. -/
def sort_coordinates (coordinates : List Coordinate) :
    List Coordinate × List Coordinate :=
  coordinates.partition (fun c => clusterMarker.isPrefixOf c.name)

/-- A cluster record during/after assembly: the same dict as a
`Coordinate` plus the optional `resources` key (absent ⇔ `none`,
created on first attachment, src/se_gps.py:664). -/
structure Cluster where
  name : Str
  x : ℚ
  y : ℚ
  z : ℚ
  colour : Str
  notes : Str
  sector : Str
  duplicate : Bool := false
  resources : Option (List Coordinate) := none
deriving DecidableEq, Repr

/-- View a record as a cluster dict (no `resources` key yet). -/
def Coordinate.toCluster (c : Coordinate) : Cluster :=
  { name := c.name, x := c.x, y := c.y, z := c.z, colour := c.colour,
    notes := c.notes, sector := c.sector, duplicate := c.duplicate }

/-- Forget a cluster's `resources` key, for distance computations
(`check_distance` reads only `x`, `y`, `z`). -/
def clusterToCoordinate (c : Cluster) : Coordinate :=
  { name := c.name, x := c.x, y := c.y, z := c.z, colour := c.colour,
    notes := c.notes, sector := c.sector, duplicate := c.duplicate }

/-- `sanitize_folder_name` (src/se_gps.py:712): spaces to underscores,
then parentheses and commas removed. -/
def sanitize_folder_name (name : Str) : Str :=
  ((name.map (fun c => if c = ' ' then '_' else c)).filter
    (fun c => c ≠ '(' ∧ c ≠ ')' ∧ c ≠ ','))

/-- `create_cluster_for_resource` (src/se_gps.py:684): a new cluster at
the resource's exact position; the random four-letter name postfix is
injected (`tag`), the entropy source being outside the core. -/
def create_cluster_for_resource (resource : Coordinate) (tag : Str) :
    Cluster :=
  let name := clusterMarker ++ ' ' :: tag
  { name := name, x := resource.x, y := resource.y, z := resource.z,
    colour := resource.colour, notes := sanitize_folder_name name,
    sector := resource.sector }

/-- One iteration of `find_nearest_cluster`'s loop (src/se_gps.py:759):
skip clusters of other sectors, keep the strictly nearest cluster seen
so far (the first of equally-near ones); clusters are addressed by
position, so the running best is `(distance, index)`. -/
def nearestStep (resource : Coordinate) (best : Option (ℕ × ℕ))
    (jc : ℕ × Cluster) : Option (ℕ × ℕ) :=
  if jc.2.sector ≠ resource.sector then best
  else
    match best with
    | none => some (check_distance resource (clusterToCoordinate jc.2), jc.1)
    | some (bd, bj) =>
      if check_distance resource (clusterToCoordinate jc.2) < bd then
        some (check_distance resource (clusterToCoordinate jc.2), jc.1)
      else some (bd, bj)

/-- `find_nearest_cluster` (src/se_gps.py:735), as the fold of
`nearestStep` over the indexed cluster list. -/
def find_nearest_cluster (resource : Coordinate) (clusters : List Cluster) :
    Option (ℕ × ℕ) :=
  clusters.enum.foldl (nearestStep resource) none

/-- Attach the resource `r` to the cluster `c` (src/se_gps.py:662): the
resource's `notes` is overwritten with the cluster's folder tag, the
cluster's `resources` key is created when absent, and the resource is
appended. -/
def attachToCluster (r : Coordinate) (c : Cluster) : Cluster :=
  let r2 : Coordinate := { r with notes := c.notes }
  { c with resources := some (c.resources.getD [] ++ [r2]) }

/-- Attach a resource to the cluster at position `j`
(src/se_gps.py:662). -/
def attachResourceAt : List Cluster → ℕ → Coordinate → List Cluster
  | [], _, _ => []
  | c :: rest, 0, r => attachToCluster r c :: rest
  | c :: rest, j + 1, r => c :: attachResourceAt rest j r

/-- A record with its `notes` tag blanked: assembly rewrites `notes` to
the owning cluster's folder tag, so resource identity across assembly is
tracked modulo `notes`. -/
def resKey (r : Coordinate) : Coordinate := { r with notes := [] }

/-- Invariant of assembly Step 2, after the records `done` have been
assigned, for an original cluster list of length `L`: the synthesized
indices sit past the originals and jointly cover them; the attached
resources are exactly the assigned records (modulo the rewritten `notes`
tag); resources attached to an original cluster lie within the
assignment radius of its (never moved) position; a synthesized cluster
holds its triggering orphan first, sits at that orphan's exact position,
and all its resources lie within the assignment radius of that
position. -/
structure AssemblyInv (L : ℕ) (done : List Coordinate)
    (st : List Cluster × List ℕ) : Prop where
  len_le : L ≤ st.1.length
  ni_range : ∀ j ∈ st.2, L ≤ j ∧ j < st.1.length
  range_ni : ∀ j, L ≤ j → j < st.1.length → j ∈ st.2
  perm : ((st.1.map (fun c => (c.resources.getD []).map resKey)).flatten).Perm
    (done.map resKey)
  orig_within : ∀ j c, j < L → st.1[j]? = some c →
    ∀ r ∈ c.resources.getD [],
      check_distance r (clusterToCoordinate c) ≤ DUPLICATE_CLUSTER_DISTANCE_METERS
  synth_anchor : ∀ j c, j ∈ st.2 → st.1[j]? = some c →
    ∃ r₀ rs, c.resources = some (r₀ :: rs) ∧
      c.x = r₀.x ∧ c.y = r₀.y ∧ c.z = r₀.z ∧
      ∀ r ∈ r₀ :: rs, check_distance r r₀ ≤ DUPLICATE_CLUSTER_DISTANCE_METERS

/-- Step 3 of assembly for one cluster (src/se_gps.py:670): move the
cluster to the centroid of its attached resources, each axis rounded to
2 decimal places. -/
def recenterCluster (c : Cluster) : Cluster :=
  let rs := c.resources.getD []
  { c with
    x := pyRound2 ((rs.map Coordinate.x).sum / (rs.length : ℚ)),
    y := pyRound2 ((rs.map Coordinate.y).sum / (rs.length : ℚ)),
    z := pyRound2 ((rs.map Coordinate.z).sum / (rs.length : ℚ)) }

/-- Recenter the cluster at position `j`. -/
def recenterAt : List Cluster → ℕ → List Cluster
  | [], _ => []
  | c :: rest, 0 => recenterCluster c :: rest
  | c :: rest, j + 1 => c :: recenterAt rest j

/-- One step of assembly Step 2 (src/se_gps.py:654): find the nearest
same-sector cluster; when none exists or it is farther than the
assignment radius, synthesize a new cluster at the resource's position
(name postfix drawn from the injected stream `gen`, indexed by how many
clusters have been synthesized so far) and append it, recording its
position in the synthesized-index list; then attach the resource. -/
def assignResource (gen : ℕ → Str) (st : List Cluster × List ℕ)
    (r : Coordinate) : List Cluster × List ℕ :=
  let cs := st.1
  let ni := st.2
  match find_nearest_cluster r cs with
  | some (d, j) =>
    if DUPLICATE_CLUSTER_DISTANCE_METERS < d then
      (attachResourceAt (cs ++ [create_cluster_for_resource r (gen ni.length)])
        cs.length r, ni ++ [cs.length])
    else (attachResourceAt cs j r, ni)
  | none =>
    (attachResourceAt (cs ++ [create_cluster_for_resource r (gen ni.length)])
      cs.length r, ni ++ [cs.length])

/-- `cluster_coordinates` (src/se_gps.py:633): Step 1 gives every
cluster its sanitized folder tag; Step 2 assigns every resource to the
nearest same-sector cluster within the 500 km radius, synthesizing new
clusters for orphans; Step 3 recenters every synthesized cluster to the
centroid of its attached resources.  Returns the final cluster list and
the positions of the synthesized clusters (`new_clusters`). -/
def cluster_coordinates (clusters resources : List Coordinate)
    (gen : ℕ → Str) : List Cluster × List ℕ :=
  let cs0 := clusters.map (fun c =>
    { c.toCluster with notes := sanitize_folder_name c.name })
  let st := resources.foldl (assignResource gen) (cs0, [])
  (st.2.foldl recenterAt st.1, st.2)

/-- C3, the claim as stated, read on the final assembly state: every
resource-marker belongs to exactly one cluster's `resources` sequence
(the concatenation of all clusters' resources is, modulo the rewritten
`notes` tag, a permutation of the input resources), and each owning
cluster either (final position) lies within the 500 km assignment radius
of the resource, or is a synthesized cluster that was created at exactly
the resource's position — a synthesized cluster is created at the
position of its first attached resource (see the `synth_anchor`
component of `AssemblyInv`), so "synthesized at the resource's position"
reads as the resource sharing the first attached resource's position. -/
def c3ClaimProp (clusters resources : List Coordinate)
    (gen : ℕ → Str) : Prop :=
  (((cluster_coordinates clusters resources gen).1.map
      (fun c => (c.resources.getD []).map resKey)).flatten).Perm
    (resources.map resKey) ∧
  ∀ j c, (cluster_coordinates clusters resources gen).1[j]? = some c →
    ∀ r ∈ c.resources.getD [],
      check_distance r (clusterToCoordinate c) ≤
        DUPLICATE_CLUSTER_DISTANCE_METERS ∨
      (j ∈ (cluster_coordinates clusters resources gen).2 ∧
        ∃ r₀ rs, c.resources = some (r₀ :: rs) ∧
          r.x = r₀.x ∧ r.y = r₀.y ∧ r.z = r₀.z)

/-- Counterexample resources for C3: an orphan at the origin and three
resources exactly 500 km away (attachable), placed so that the recentred
centroid drifts 625 km from the second resource. -/
def c3r1 : Coordinate := { cexOrigin with name := "R1".data }

def c3r2 : Coordinate := { cexOrigin with name := "R2".data, x := -500000 }

def c3r3 : Coordinate := { cexOrigin with name := "R3".data, x := 500000 }

def c3r4 : Coordinate := { cexOrigin with name := "R4".data, x := 500000 }

/-- Fixed synthetic-name stream for the C3 counterexample. -/
def c3gen : ℕ → Str := fun _ => "ABCD".data

/-- The folder tag of the synthesized counterexample cluster. -/
def c3note : Str := "Cluster_ABCD".data

/-- The C3 counterexample cluster just after Step 2: at the orphan's
position with all four resources attached. -/
def c3Mid : Cluster :=
  { name := "Cluster ABCD".data, x := 0, y := 0, z := 0,
    colour := "#FFFFFF00".data, notes := c3note, sector := "ZS".data,
    resources := some [{ c3r1 with notes := c3note },
      { c3r2 with notes := c3note }, { c3r3 with notes := c3note },
      { c3r4 with notes := c3note }] }

/-- The C3 counterexample cluster after Step 3's recentering. -/
def c3Final : Cluster := { c3Mid with x := 125000 }

/-- One write of `main`'s output loop (src/se_gps.py:246): a zone
section header, a cluster GPS line, a resource GPS line, or the blank
separator line. -/
inductive Ev where
  | hdr (h : Str)
  | cline (c : Cluster)
  | rline (r : Coordinate)
  | blank
deriving DecidableEq, Repr

/-- Python's `str.split()` with no argument: split on whitespace runs,
discarding empty pieces. -/
def pySplitWs (s : Str) : List Str :=
  match s with
  | [] => []
  | c :: rest =>
    if pyIsSpace c then pySplitWs rest
    else (c :: rest).takeWhile (fun d => !(pyIsSpace d)) ::
      pySplitWs ((c :: rest).dropWhile (fun d => !(pyIsSpace d)))
termination_by s.length
decreasing_by
  · simp only [List.length_cons]
    omega
  · rename_i hc
    have hdw : List.dropWhile (fun d => !(pyIsSpace d)) (c :: rest) =
        List.dropWhile (fun d => !(pyIsSpace d)) rest := by
      rw [List.dropWhile_cons]
      simp [hc]
    rw [hdw]
    exact Nat.lt_succ_of_le ((List.dropWhile_sublist _).length_le)

/-- The sort key of `main`'s per-cluster resource sort
(src/se_gps.py:258): `ORES.index(coord['name'].split()[1])` — the
position of the name's second whitespace-separated token in the ore
vocabulary.  Python raises when the token is missing or unknown (and the
program aborts before writing output); the model totalizes with
`List.indexOf` (vocabulary length when unknown) and the emission claims
carry the validity hypothesis. -/
def oreKey (r : Coordinate) : ℕ :=
  ORES.indexOf ((pySplitWs r.name).getD 1 [])

/-- The in-place resource sort of `main` (src/se_gps.py:257):
`list.sort` is stable, modelled by a stable merge sort. -/
def sortResources (rs : List Coordinate) : List Coordinate :=
  rs.mergeSort (fun a b => decide (oreKey a ≤ oreKey b))

/-- The cluster sort of `main` (src/se_gps.py:237):
`clusters.sort(key=..., reverse=True)` — stable, by descending
`sector_index` of the cluster's sector. -/
def sortClusters (cs : List Cluster) : List Cluster :=
  cs.mergeSort (fun a b => decide (sector_index b.sector ≤ sector_index a.sector))

/-- One iteration of the header-writing inner loop (src/se_gps.py:249):
walk the `SECTORS` table; on the entry matching the cluster's sector,
write its header if it differs from the last written one. -/
def headerStep (secAbbr : Str) (st : List Ev × Option Str) (s : Sector) :
    List Ev × Option Str :=
  if s.abbr = secAbbr then
    if st.2 ≠ some s.header then (st.1 ++ [Ev.hdr s.header], some s.header)
    else st
  else st

/-- The header-writing inner loop of `main` (src/se_gps.py:249) for one
cluster: the events written and the updated `current_sector_header`. -/
def emitHeader (cur : Option Str) (secAbbr : Str) : List Ev × Option Str :=
  SECTORS.foldl (headerStep secAbbr) ([], cur)

/-- One iteration of `main`'s output loop (src/se_gps.py:246): the
header check runs for every cluster; the cluster line, its sorted
resource lines and a blank line are written only when the `resources`
key exists. -/
def emitCluster (st : List Ev × Option Str) (c : Cluster) :
    List Ev × Option Str :=
  let h := emitHeader st.2 c.sector
  match c.resources with
  | some rs =>
    (st.1 ++ h.1 ++ Ev.cline c ::
      ((sortResources rs).map Ev.rline ++ [Ev.blank]), h.2)
  | none => (st.1 ++ h.1, h.2)

/-- `main`'s output loop over an already-sorted cluster list, starting
with no current header (src/se_gps.py:240). -/
def emitClusters (clusters : List Cluster) : List Ev :=
  (clusters.foldl emitCluster ([], none)).1

/-- The emission section of `main` (src/se_gps.py:237): sort the
clusters by descending zone-table index, then write headers, cluster
lines and sorted resource lines. -/
def emitMain (clusters : List Cluster) : List Ev :=
  emitClusters (sortClusters clusters)

/-- The table header displayed for a zone abbreviation (the first
matching `SECTORS` entry), empty for an unknown abbreviation. -/
def headerOfD (abbr : Str) : Str :=
  ((SECTORS.find? (fun s => s.abbr = abbr)).map Sector.header).getD []

/-- The output block of one cluster: its GPS line, its sorted resource
lines and the blank separator when it has resources, nothing
otherwise. -/
def blockOf (c : Cluster) : List Ev :=
  match c.resources with
  | some rs => Ev.cline c :: ((sortResources rs).map Ev.rline ++ [Ev.blank])
  | none => []

/-- Split a cluster list into maximal runs of equal sector, in order. -/
def chunkSectors : List Cluster → List (Str × List Cluster)
  | [] => []
  | c :: rest =>
    (c.sector, c :: rest.takeWhile (fun d => d.sector = c.sector)) ::
      chunkSectors (rest.dropWhile (fun d => d.sector = c.sector))
termination_by l => l.length
decreasing_by
  exact Nat.lt_succ_of_le ((List.dropWhile_sublist _).length_le)

/-- The `current_sector_header` value after emitting `cs'` starting
from `cur`: unchanged for an empty list, otherwise the header of the
last cluster's zone. -/
def curAfter (cur : Option Str) (cs' : List Cluster) : Option Str :=
  match cs'.getLast? with
  | none => cur
  | some cl => some (headerOfD cl.sector)

/-- The cluster payloads of the cluster lines of an event list, in
order. -/
def clustersOfEvents : List Ev → List Cluster
  | [] => []
  | Ev.cline c :: rest => c :: clustersOfEvents rest
  | _ :: rest => clustersOfEvents rest

/-- A concrete cluster-marker that ends assembly with no attached
resources (its `resources` key was never created), in zone ZS. -/
def c10empty : Cluster :=
  { name := "Cluster LONE".data, x := 0, y := 0, z := 0,
    colour := "#FFFFFF00".data, notes := "Cluster_LONE".data,
    sector := "ZS".data }

/-- An `_\d+` tail of the `normalize_name` sector regex
(src/se_gps.py:833): an underscore followed by one or more digits and
nothing else. -/
def isUDSuffix : Str → Bool
  | '_' :: ds => !ds.isEmpty && ds.all pyIsDigit
  | _ => false

/-- The text captured by the lazy `(?P<ores>.+?)` group of the sector
regex (src/se_gps.py:833) when it matches against `T` with `(_\d+)?$`
behind it: the shortest nonempty prefix of `T` whose remainder is
empty or an `_\d+` tail. -/
def lazyCore : Str → Str
  | [] => []
  | c :: rest =>
    if rest.isEmpty || isUDSuffix rest then [c] else c :: lazyCore rest

/-- `re.match(r'^\s*(?P<sector>\S+)\s+(?P<ores>.+?)(_\d+)?$', name)`
(src/se_gps.py:832), returning the `sector` and `ores` captures:
leading whitespace is skipped, `sector` takes the maximal
non-whitespace run, at least one whitespace character must follow, and
`ores` matches lazily with an optional trailing `_\d+` left out.  When
only whitespace follows the separator, the engine backtracks the
greedy `\s+` by one character, which the lazy group then captures;
this needs at least two whitespace characters.  (`.` does not match a
newline; the embedding is used on newline-free strings.) -/
def sectorOresMatch (name : Str) : Option (Str × Str) :=
  let w := name.dropWhile pyIsSpace
  let s := w.takeWhile (fun c => !pyIsSpace c)
  let u := w.dropWhile (fun c => !pyIsSpace c)
  let g := u.takeWhile pyIsSpace
  let T := u.dropWhile pyIsSpace
  if s.isEmpty then none
  else if g.isEmpty then none
  else if !T.isEmpty then some (s, lazyCore T)
  else if 2 ≤ g.length then some (s, g.drop (g.length - 1))
  else none

/-- One `(ore, size)` capture pair of the ores regex
(src/se_gps.py:848), with the raw (unstripped) size. -/
abbrev OreEntry := Str × Option Str

/-- All matches of
`re.finditer(r'\s*(?P<ore>[A-Z]+)(\s+(?P<size>[^,]+)\s*,?)?', ores)`
in order (src/se_gps.py:848): scan to the next `[A-Z]` character and
take the maximal `[A-Z]+` run as the ore; the optional size group
requires at least one whitespace character, then captures the maximal
non-comma run and consumes one trailing comma if present; when only
whitespace (followed by a comma or the end) remains, backtracking of
the greedy `\s+` leaves its last whitespace character as the capture,
needing at least two. -/
def parseOres (str : Str) : List OreEntry :=
  match hd : str.dropWhile (fun c => !isAZ c) with
  | [] => []
  | c :: t' =>
    if (((c :: t').dropWhile isAZ).takeWhile pyIsSpace).isEmpty then
      ((c :: t').takeWhile isAZ, none) :: parseOres ((c :: t').dropWhile isAZ)
    else
      match hv : ((c :: t').dropWhile isAZ).dropWhile pyIsSpace with
      | [] =>
        if 2 ≤ (((c :: t').dropWhile isAZ).takeWhile pyIsSpace).length then
          [((c :: t').takeWhile isAZ,
            some ((((c :: t').dropWhile isAZ).takeWhile pyIsSpace).drop
              ((((c :: t').dropWhile isAZ).takeWhile pyIsSpace).length - 1)))]
        else [((c :: t').takeWhile isAZ, none)]
      | d :: v' =>
        if d = ',' then
          if 2 ≤ (((c :: t').dropWhile isAZ).takeWhile pyIsSpace).length then
            ((c :: t').takeWhile isAZ,
              some ((((c :: t').dropWhile isAZ).takeWhile pyIsSpace).drop
                ((((c :: t').dropWhile isAZ).takeWhile pyIsSpace).length - 1))) ::
              parseOres v'
          else
            ((c :: t').takeWhile isAZ, none) ::
              parseOres ((c :: t').dropWhile isAZ)
        else
          ((c :: t').takeWhile isAZ,
            some ((d :: v').takeWhile (fun e => !(e = ',')))) ::
            parseOres (((d :: v').dropWhile (fun e => !(e = ','))).drop 1)
termination_by str.length
decreasing_by
  all_goals
    have hle : (c :: t').length ≤ str.length := by
      rw [← hd]
      exact (List.dropWhile_sublist _).length_le
    have hcaz : isAZ c = true := by
      have h0 := List.head_dropWhile_not (fun c => !isAZ c) str
      rw [hd] at h0
      simpa using h0
    have hu : (c :: t').dropWhile isAZ = t'.dropWhile isAZ := by
      rw [List.dropWhile_cons, if_pos hcaz]
    have h1 : ((c :: t').dropWhile isAZ).length ≤ t'.length := by
      rw [hu]
      exact (List.dropWhile_sublist _).length_le
    have h2 : (((c :: t').dropWhile isAZ).dropWhile pyIsSpace).length ≤
        ((c :: t').dropWhile isAZ).length :=
      (List.dropWhile_sublist _).length_le
    simp only [List.length_cons] at hle
  · omega
  · have hv2 : (((c :: t').dropWhile isAZ).dropWhile pyIsSpace).length =
        v'.length + 1 := by
      rw [hv]
      rfl
    omega
  · omega
  · have h3 : ((d :: v').dropWhile (fun e => !(e = ','))).length ≤
        (d :: v').length :=
      (List.dropWhile_sublist _).length_le
    have hv2 : (((c :: t').dropWhile isAZ).dropWhile pyIsSpace).length =
        v'.length + 1 := by
      rw [hv]
      rfl
    simp only [List.length_drop, List.length_cons] at *
    omega

/-- `size.strip()` applied to each captured size (src/se_gps.py:855). -/
def stripSizes (es : List OreEntry) : List OreEntry :=
  es.map (fun e => (e.1, e.2.map pyStrip))

/-- `valid_ores.sort(key=lambda valid_ore: ORES.index(valid_ore[0]))`
(src/se_gps.py:863): a stable sort by the ore's index in the ore
table, parameterised over the table. -/
def sortEntries (ores : List Str) (es : List OreEntry) : List OreEntry :=
  es.mergeSort (fun a b => decide (ores.indexOf a.1 ≤ ores.indexOf b.1))

/-- The text appended for one `(ore, size)` pair: the ore, then a
space and the size when one was captured (src/se_gps.py:872). -/
def renderEntry (e : OreEntry) : Str :=
  e.1 ++ (match e.2 with | some sz => ' ' :: sz | none => [])

/-- The `' , '`-prefixed continuation of the rendering loop
(src/se_gps.py:869). -/
def renderRest (es : List OreEntry) : Str :=
  es.flatMap (fun e => ' ' :: ',' :: ' ' :: renderEntry e)

/-- The rendering loop of `normalize_name` (src/se_gps.py:865): a
space before the first entry, `' , '` before every later one. -/
def renderOres : List OreEntry → Str
  | [] => []
  | e :: es => ' ' :: (renderEntry e ++ renderRest es)

/-- `normalize_name` (src/se_gps.py:816), parameterised over the ore
vocabulary (`ORES`) and the sector abbreviation column (`SECTORS`):
match the sector regex; upper-case both captures; treat a sector
token that is itself an ore as a missing sector and prepend it to the
ores text, otherwise require a valid sector abbreviation; parse the
`(ore, size)` pairs, failing on any unknown ore; sort them stably by
ore-table index; and render them after the `sector` argument. -/
def normalize_name (ores abbrs : List Str) (name sector : Str) :
    Option Str :=
  match sectorOresMatch name with
  | none => none
  | some (s, oresRaw) =>
    let existing := upStr s
    let oresText :=
      if existing ∈ ores then existing ++ ' ' :: upStr oresRaw
      else upStr oresRaw
    if existing ∈ ores ∨ valid_sector abbrs existing then
      let es := stripSizes (parseOres oresText)
      if es.all (fun e => decide (e.1 ∈ ores)) then
        some (sector ++ renderOres (sortEntries ores es))
      else none
    else none

/-- Whether a string ends in a whitespace character. -/
def endsWs (s : Str) : Bool :=
  match s.getLast? with
  | some c => pyIsSpace c
  | none => false

/-- Whether some suffix of the string is an `_\d+` tail, i.e. the
string ends in an underscore followed only by digits. -/
def hasUDTail : Str → Bool
  | [] => false
  | c :: rest => isUDSuffix (c :: rest) || hasUDTail rest

theorem check_distance_eq_roundSqrt (a b : Coordinate) :
    check_distance a b = roundSqrt (sqDist a b) := rfl

theorem sqDist_nonneg (a b : Coordinate) : 0 ≤ sqDist a b := by
  have hx : (0:ℚ) ≤ (b.x - a.x) ^ 2 := sq_nonneg _
  have hy : (0:ℚ) ≤ (b.y - a.y) ^ 2 := sq_nonneg _
  have hz : (0:ℚ) ≤ (b.z - a.z) ^ 2 := sq_nonneg _
  unfold sqDist; linarith

theorem sqDist_comm (a b : Coordinate) : sqDist a b = sqDist b a := by
  unfold sqDist; ring

/-- `roundSqrt` vanishes exactly on `[0, 1/4]`: `√q ≤ 1/2` there, and the
tie `√q = 1/2` rounds to the even integer `0`. -/
theorem roundSqrt_eq_zero_iff (q : ℚ) (hq : 0 ≤ q) :
    roundSqrt q = 0 ↔ q ≤ 1/4 := by
  unfold roundSqrt
  constructor
  · intro h
    by_cases hc : 4 * q = ((Nat.sqrt (⌊4 * q⌋).toNat : ℚ)) ^ 2 ∧
        Nat.sqrt (⌊4 * q⌋).toNat % 2 = 1 ∧ Nat.sqrt (⌊4 * q⌋).toNat / 2 % 2 = 0
    · rw [if_pos hc] at h
      obtain ⟨h4, hodd, -⟩ := hc
      -- k odd with k/2 = 0 forces k = 1, hence 4q = 1
      have hk1 : Nat.sqrt (⌊4 * q⌋).toNat = 1 := by omega
      rw [hk1] at h4
      have : 4 * q = 1 := by simpa using h4
      linarith
    · rw [if_neg hc] at h
      have hk0 : Nat.sqrt (⌊4 * q⌋).toNat = 0 := by omega
      have hm : (⌊4 * q⌋).toNat = 0 := by
        have := Nat.sqrt_eq_zero.mp hk0
        omega
      have hfl : ⌊4 * q⌋ ≤ 0 := by omega
      have : 4 * q < 1 := by
        have h1 : (4 : ℚ) * q < ⌊4 * q⌋ + 1 := Int.lt_floor_add_one _
        have h2 : ((⌊4 * q⌋ : ℚ)) + 1 ≤ 1 := by
          have : ((⌊4 * q⌋ : ℚ)) ≤ 0 := by exact_mod_cast hfl
          linarith
        linarith
      linarith
  · intro h
    have h4 : 4 * q ≤ 1 := by linarith
    have hge : (0:ℤ) ≤ ⌊4 * q⌋ := by
      apply Int.floor_nonneg.mpr; linarith
    have hle : ⌊4 * q⌋ ≤ 1 := by
      have h1 : (4:ℚ) * q ≤ ((1 : ℤ) : ℚ) := by exact_mod_cast h4
      calc ⌊4 * q⌋ ≤ ⌊((1:ℤ) : ℚ)⌋ := Int.floor_le_floor h1
        _ = 1 := by simp
    rcases (by omega : ⌊4 * q⌋ = 0 ∨ ⌊4 * q⌋ = 1) with hm | hm
    · -- m = 0, k = 0, no tie: result (0+1)/2 = 0
      rw [hm]
      have : ¬ (4 * q = ((Nat.sqrt ((0:ℤ)).toNat : ℚ)) ^ 2 ∧
          Nat.sqrt ((0:ℤ)).toNat % 2 = 1 ∧ Nat.sqrt ((0:ℤ)).toNat / 2 % 2 = 0) := by
        rintro ⟨-, h2, -⟩
        revert h2; norm_num
      rw [if_neg this]
      norm_num
    · -- m = 1: then 4q = 1 exactly (floor 1 and 4q ≤ 1), tie at k = 1
      have hq1 : 4 * q = 1 := by
        have hlow : ((1:ℤ) : ℚ) ≤ 4 * q := by
          have := Int.floor_le (4 * q); rw [hm] at this; exact_mod_cast this
        have : (1:ℚ) ≤ 4 * q := by exact_mod_cast hlow
        linarith
      rw [hm]
      have hcond : 4 * q = ((Nat.sqrt ((1:ℤ)).toNat : ℚ)) ^ 2 ∧
          Nat.sqrt ((1:ℤ)).toNat % 2 = 1 ∧ Nat.sqrt ((1:ℤ)).toNat / 2 % 2 = 0 := by
        refine ⟨?_, by norm_num, by norm_num⟩
        rw [hq1]; norm_num
      rw [if_pos hcond]
      norm_num

/-- `roundSqrt` of a perfect square: `round(√(n²)) = n`. -/
theorem roundSqrt_sq (n : ℕ) : roundSqrt ((n : ℚ) ^ 2) = n := by
  unfold roundSqrt
  have h4 : (4 : ℚ) * (n : ℚ) ^ 2 = (((2 * n) ^ 2 : ℕ) : ℚ) := by push_cast; ring
  have hfl : (⌊(4 : ℚ) * (n : ℚ) ^ 2⌋).toNat = (2 * n) ^ 2 := by
    rw [h4, Int.floor_natCast, Int.toNat_natCast]
  rw [hfl, Nat.sqrt_eq']
  have hne : ¬ ((4 : ℚ) * (n:ℚ) ^ 2 = ((2 * n : ℕ) : ℚ) ^ 2 ∧
      (2 * n) % 2 = 1 ∧ (2 * n) / 2 % 2 = 0) := by
    rintro ⟨-, h2, -⟩; omega
  rw [if_neg hne]
  omega

/-- Evaluate `check_distance` when the squared distance is a perfect
square. -/
theorem check_distance_of_sq (a b : Coordinate) (n : ℕ)
    (h : sqDist a b = (n : ℚ) ^ 2) : check_distance a b = n := by
  rw [check_distance_eq_roundSqrt, h, roundSqrt_sq]

/-- Evaluate `check_distance` when the squared distance is at most 1/4. -/
theorem check_distance_eq_zero_of_le (a b : Coordinate)
    (h : sqDist a b ≤ 1/4) : check_distance a b = 0 := by
  rw [check_distance_eq_roundSqrt]
  exact (roundSqrt_eq_zero_iff _ (sqDist_nonneg a b)).mpr h

/-- C9 counterexample: two records 0.25 m apart on the x axis have
`check_distance` 0 (the rounded distance vanishes) although their
positions are not identical, refuting "distance zero iff identical
position". -/
theorem c9_zero_iff_counterexample :
    check_distance cexOrigin cexQuarter = 0 ∧
    ¬ (cexOrigin.x = cexQuarter.x ∧ cexOrigin.y = cexQuarter.y ∧
       cexOrigin.z = cexQuarter.z) := by
  constructor
  · apply check_distance_eq_zero_of_le
    norm_num [sqDist, cexOrigin, cexQuarter]
  · norm_num [cexOrigin, cexQuarter]

/-- C9 (amended): `check_distance` is symmetric, zero on identical
records, and non-negative; `check_distance a b = 0` holds exactly when
the squared Euclidean distance is at most 1/4 m² (i.e. the true distance
is at most 0.5 m, the 0.5 m tie rounding to the even integer 0) — not
only when the positions are identical. -/
theorem c9_distance_properties (a b : Coordinate) :
    check_distance a b = check_distance b a ∧
    check_distance a a = 0 ∧
    0 ≤ check_distance a b ∧
    (check_distance a b = 0 ↔ sqDist a b ≤ 1/4) := by
  refine ⟨?_, ?_, Nat.zero_le _, ?_⟩
  · unfold check_distance
    congr 1
    ring
  · apply check_distance_eq_zero_of_le
    simp [sqDist]
  · rw [check_distance_eq_roundSqrt]
    exact roundSqrt_eq_zero_iff _ (sqDist_nonneg a b)

/-- C1 (code bug): `find_duplicates` skips every record structurally
equal to the anchor — the source's `coordinate == test_coordinate` dict
comparison, meant to skip the anchor itself, also skips identical twins.
Two records with identical fields are 0 m apart and in the same zone, a
group mutually within any positive threshold, yet neither is ever
grouped, the oracle is never consulted, and both survive the pass —
contradicting both the claim and the function's own docstring
("Remove duplicate coordinates from the coordinate list"). -/
theorem c1_identical_records_both_survive :
    deduplicate_coordinates (fun _ => 1) [cexOrigin, cexOrigin] 2000 =
      [cexOrigin, cexOrigin] ∧
    find_duplicates 0 cexOrigin [cexOrigin, cexOrigin] 2000 = [] := by
  exact ⟨by decide, by decide⟩

/-- C2 (code bug): the retry loop's bound is off by one.  After
enumerating a group of `n` records the local `index` is `n + 1`, and the
acceptance test `response >= 1 and response <= index` therefore accepts
the out-of-range response `n + 1` (here: 3 for a 2-record group) instead
of rejecting and re-prompting; `mark_duplicates` is then called with
`skip_index = n`, which matches no group position, so every record of the
group — not all-but-one — is marked duplicate.  In-range handling is as
claimed: 0 is rejected, and an accepted in-range response marks exactly
the non-chosen members. -/
theorem c2_off_by_one_response_accepted :
    responseAccepted 2 3 = true ∧
    responseAccepted 2 0 = false ∧
    firstAcceptedResponse 2 (fun _ => 3) 0 1 = some 3 ∧
    (handleDuplicatesRetry (fun _ => 3) [cexOrigin, cexNear]
        [(0, 0), (1, 50)] 1).map Coordinate.duplicate = [true, true] ∧
    (mark_duplicates [cexOrigin, cexNear] [(0, 0), (1, 50)] 0).map
        Coordinate.duplicate = [false, true] := by
  refine ⟨by decide, by decide, by decide, by decide, by decide⟩

theorem countName_append (n : Str) (l₁ l₂ : List Coordinate) :
    countName n (l₁ ++ l₂) = countName n l₁ + countName n l₂ := by
  unfold countName
  rw [List.filter_append, List.length_append]

theorem hashOf_update (pre : List Coordinate) (r : Coordinate) :
    (fun n => if n = r.name then some (countName r.name pre + 2)
              else hashOf pre n) = hashOf (pre ++ [r]) := by
  funext n
  by_cases hn : n = r.name
  · have h1 : countName r.name (pre ++ [r]) = countName r.name pre + 1 := by
      rw [countName_append]
      simp [countName]
    subst hn
    simp [hashOf, h1]
  · have h2 : countName n [r] = 0 := by
      simp [countName]
      intro h
      exact absurd h.symm hn
    have h1 : countName n (pre ++ [r]) = countName n pre := by
      rw [countName_append, h2]
      omega
    simp [hashOf, h1, hn]

theorem make_names_unique_go_spec (rest : List Coordinate) :
    ∀ pre : List Coordinate,
      make_names_unique.go (hashOf pre) rest =
        rest.mapIdx
          (fun i r => renameAt r (countName r.name (pre ++ rest.take i))) := by
  induction rest with
  | nil => intro pre; simp [make_names_unique.go]
  | cons r rest' ih =>
    intro pre
    rw [List.mapIdx_cons]
    by_cases hc : countName r.name pre = 0
    · have hh : hashOf pre r.name = none := by simp [hashOf, hc]
      have hupd : (fun n => if n = r.name then some 2 else hashOf pre n) =
          hashOf (pre ++ [r]) := by
        have h := hashOf_update pre r
        rw [hc] at h
        simpa using h
      simp only [make_names_unique.go, hh, hupd, ih (pre ++ [r])]
      simp [renameAt, hc, List.take_succ_cons, List.append_assoc]
    · have hh : hashOf pre r.name = some (countName r.name pre + 1) := by
        simp [hashOf, hc]
      have hupd : (fun n => if n = r.name then some (countName r.name pre + 2)
          else hashOf pre n) = hashOf (pre ++ [r]) := hashOf_update pre r
      simp only [make_names_unique.go, hh, hupd, ih (pre ++ [r])]
      simp [renameAt, hc, List.take_succ_cons, List.append_assoc]

/-- C7 counterexample: two records both originally named "A".  The second
becomes `"A _2"` — the code appends a space, an underscore and the
counter (`f'{name} _{counter}'`) — not `"A_2"` as the claim states. -/
theorem c7_suffix_counterexample :
    (make_names_unique [cexOrigin, cexOrigin]).map Coordinate.name =
      ["A".data, "A _2".data] ∧
    "A _2".data ≠ "A_2".data := by
  exact ⟨by decide, by decide⟩

/-- C7 (amended): `make_names_unique` leaves the first occurrence of
each original name unchanged and renames the `k`-th later occurrence
(`k ≥ 1` earlier records with the same original name) by appending a
space, an underscore and the counter `k + 1` — `" _2"` for the second
occurrence, `" _3"` for the third, and so on (the claim's suffix lacked
the space). -/
theorem c7_unique_names_closed_form (resources : List Coordinate) :
    make_names_unique resources = uniqueNamesSpec resources := by
  have h0 : (fun _ : Str => (none : Option ℕ)) = hashOf [] := by
    funext n
    simp [hashOf, countName]
  unfold make_names_unique uniqueNamesSpec
  rw [h0, make_names_unique_go_spec]
  simp

theorem attachResourceAt_length (cs : List Cluster) (j : ℕ) (r : Coordinate) :
    (attachResourceAt cs j r).length = cs.length := by
  induction cs generalizing j with
  | nil => rfl
  | cons c rest ih =>
    cases j with
    | zero => rfl
    | succ j => simp [attachResourceAt, ih]

theorem attachResourceAt_getElem? (cs : List Cluster) (j : ℕ) (r : Coordinate)
    (i : ℕ) :
    (attachResourceAt cs j r)[i]? =
      if i = j then (cs[j]?).map (attachToCluster r) else cs[i]? := by
  induction cs generalizing j i with
  | nil => simp [attachResourceAt]
  | cons c rest ih =>
    cases j with
    | zero =>
      cases i with
      | zero => simp [attachResourceAt]
      | succ i => simp [attachResourceAt]
    | succ j =>
      cases i with
      | zero => simp [attachResourceAt]
      | succ i => simpa [attachResourceAt] using ih j i

theorem recenterAt_length (cs : List Cluster) (j : ℕ) :
    (recenterAt cs j).length = cs.length := by
  induction cs generalizing j with
  | nil => rfl
  | cons c rest ih =>
    cases j with
    | zero => rfl
    | succ j => simp [recenterAt, ih]

theorem recenterAt_getElem? (cs : List Cluster) (j i : ℕ) :
    (recenterAt cs j)[i]? =
      if i = j then (cs[j]?).map recenterCluster else cs[i]? := by
  induction cs generalizing j i with
  | nil => simp [recenterAt]
  | cons c rest ih =>
    cases j with
    | zero =>
      cases i with
      | zero => simp [recenterAt]
      | succ i => simp [recenterAt]
    | succ j =>
      cases i with
      | zero => simp [recenterAt]
      | succ i => simpa [recenterAt] using ih j i

theorem recenterCluster_resources (c : Cluster) :
    (recenterCluster c).resources = c.resources := rfl

theorem recenterCluster_idem (c : Cluster) :
    recenterCluster (recenterCluster c) = recenterCluster c := rfl

theorem foldl_recenterAt_getElem?_not_mem (ni : List ℕ) :
    ∀ (cs : List Cluster) (j : ℕ), j ∉ ni →
      (ni.foldl recenterAt cs)[j]? = cs[j]? := by
  induction ni with
  | nil => intro cs j _; rfl
  | cons a ni' ih =>
    intro cs j hj
    have hja : j ≠ a := fun h => hj (h ▸ List.mem_cons_self a ni')
    have hj' : j ∉ ni' := fun h => hj (List.mem_cons_of_mem a h)
    simp only [List.foldl_cons]
    rw [ih (recenterAt cs a) j hj', recenterAt_getElem?, if_neg hja]

theorem foldl_recenterAt_getElem?_mem (ni : List ℕ) :
    ∀ (cs : List Cluster) (j : ℕ), j ∈ ni →
      (ni.foldl recenterAt cs)[j]? = (cs[j]?).map recenterCluster := by
  induction ni with
  | nil => intro cs j hj; cases hj
  | cons a ni' ih =>
    intro cs j hj
    simp only [List.foldl_cons]
    by_cases hj' : j ∈ ni'
    · rw [ih (recenterAt cs a) j hj', recenterAt_getElem?]
      by_cases hja : j = a
      · subst hja
        rw [if_pos rfl]
        cases cs[j]? with
        | none => rfl
        | some c => simp [recenterCluster_idem]
      · rw [if_neg hja]
    · have hja : j = a := by
        rcases List.mem_cons.mp hj with h | h
        · exact h
        · exact absurd h hj'
      subst hja
      rw [foldl_recenterAt_getElem?_not_mem ni' _ j hj', recenterAt_getElem?,
        if_pos rfl]

theorem nearestStep_none (r : Coordinate) (jc : ℕ × Cluster) :
    nearestStep r none jc =
      if jc.2.sector ≠ r.sector then none
      else some (check_distance r (clusterToCoordinate jc.2), jc.1) := rfl

theorem nearestStep_some (r : Coordinate) (bd bj : ℕ) (jc : ℕ × Cluster) :
    nearestStep r (some (bd, bj)) jc =
      if jc.2.sector ≠ r.sector then some (bd, bj)
      else if check_distance r (clusterToCoordinate jc.2) < bd then
        some (check_distance r (clusterToCoordinate jc.2), jc.1)
      else some (bd, bj) := rfl

theorem find_nearest_fold (r : Coordinate) (full : List (ℕ × Cluster)) :
    ∀ (l : List (ℕ × Cluster)) (acc : Option (ℕ × ℕ)),
      (∀ p ∈ l, p ∈ full) →
      (∀ d j, acc = some (d, j) → ∃ c, (j, c) ∈ full ∧
        c.sector = r.sector ∧ d = check_distance r (clusterToCoordinate c)) →
      ∀ d j, l.foldl (nearestStep r) acc = some (d, j) →
        ∃ c, (j, c) ∈ full ∧ c.sector = r.sector ∧
          d = check_distance r (clusterToCoordinate c) := by
  intro l
  induction l with
  | nil => intro acc _ hacc d j h; exact hacc d j h
  | cons p l' ih =>
    intro acc hl hacc d j h
    simp only [List.foldl_cons] at h
    refine ih _ (fun q hq => hl q (List.mem_cons_of_mem p hq)) ?_ d j h
    intro d' j' hacc'
    have hpfull : p ∈ full := hl p (List.mem_cons_self p l')
    by_cases hs : p.2.sector ≠ r.sector
    · cases acc with
      | none => rw [nearestStep_none, if_pos hs] at hacc'; cases hacc'
      | some bdj =>
        rcases bdj with ⟨bd, bj⟩
        rw [nearestStep_some, if_pos hs] at hacc'
        exact hacc d' j' hacc'
    · push_neg at hs
      cases acc with
      | none =>
        rw [nearestStep_none, if_neg (by simpa using hs)] at hacc'
        simp only [Option.some.injEq, Prod.mk.injEq] at hacc'
        obtain ⟨hd, hj⟩ := hacc'
        subst hj
        exact ⟨p.2, hpfull, hs, hd.symm⟩
      | some bdj =>
        rcases bdj with ⟨bd, bj⟩
        rw [nearestStep_some, if_neg (by simpa using hs)] at hacc'
        by_cases hlt : check_distance r (clusterToCoordinate p.2) < bd
        · rw [if_pos hlt] at hacc'
          simp only [Option.some.injEq, Prod.mk.injEq] at hacc'
          obtain ⟨hd, hj⟩ := hacc'
          subst hj
          exact ⟨p.2, hpfull, hs, hd.symm⟩
        · rw [if_neg hlt] at hacc'
          exact hacc d' j' hacc'

theorem find_nearest_spec (r : Coordinate) (cs : List Cluster) (d j : ℕ)
    (h : find_nearest_cluster r cs = some (d, j)) :
    ∃ c, cs[j]? = some c ∧ c.sector = r.sector ∧
      d = check_distance r (clusterToCoordinate c) := by
  have hfold := find_nearest_fold r cs.enum cs.enum none (fun p hp => hp)
    (by intro d' j' h'; cases h') d j h
  rcases hfold with ⟨c, hmem, hsec, hd⟩
  exact ⟨c, List.mk_mem_enum_iff_getElem?.mp hmem, hsec, hd⟩

theorem resKey_attach (r : Coordinate) (n : Str) :
    resKey { r with notes := n } = resKey r := rfl

theorem attach_flatten_perm (r : Coordinate) :
    ∀ (cs : List Cluster) (j : ℕ), j < cs.length →
      ((attachResourceAt cs j r).map
        (fun c => (c.resources.getD []).map resKey)).flatten.Perm
      (resKey r ::
        (cs.map (fun c => (c.resources.getD []).map resKey)).flatten) := by
  intro cs
  induction cs with
  | nil => intro j hj; cases hj
  | cons c rest ih =>
    intro j hj
    cases j with
    | zero =>
      simp only [attachResourceAt, List.map_cons, List.flatten_cons]
      have hhead : ((attachToCluster r c).resources.getD []).map resKey =
          ((c.resources.getD []).map resKey) ++ [resKey r] := by
        simp [attachToCluster, resKey_attach]
      rw [hhead, List.append_assoc]
      exact List.perm_middle
    | succ j =>
      have hj' : j < rest.length := by simpa using hj
      simp only [attachResourceAt, List.map_cons, List.flatten_cons]
      exact List.Perm.trans (List.Perm.append_left _ (ih j hj')) List.perm_middle

theorem attachResourceAt_append_last (cs : List Cluster) (c : Cluster)
    (r : Coordinate) :
    attachResourceAt (cs ++ [c]) cs.length r = cs ++ [attachToCluster r c] := by
  induction cs with
  | nil => rfl
  | cons c' rest ih => simp [attachResourceAt, ih]

theorem check_distance_to_anchor (r : Coordinate) (c : Cluster)
    (r₀ : Coordinate) (hx : c.x = r₀.x) (hy : c.y = r₀.y) (hz : c.z = r₀.z) :
    check_distance r r₀ = check_distance r (clusterToCoordinate c) := by
  unfold check_distance clusterToCoordinate
  rw [← hx, ← hy, ← hz]

theorem assign_attach_inv (L : ℕ) (done : List Coordinate)
    (cs : List Cluster) (ni : List ℕ) (r : Coordinate) (j : ℕ) (c : Cluster)
    (h : AssemblyInv L done (cs, ni)) (hcj : cs[j]? = some c)
    (hdle : check_distance r (clusterToCoordinate c) ≤
      DUPLICATE_CLUSTER_DISTANCE_METERS) :
    AssemblyInv L (done ++ [r]) (attachResourceAt cs j r, ni) := by
  obtain ⟨hlen, hnir, hrni, hperm, horig, hsyn⟩ := h
  have hjlt : j < cs.length := (List.getElem?_eq_some.mp hcj).1
  refine ⟨?_, ?_, ?_, ?_, ?_, ?_⟩
  · simpa [attachResourceAt_length] using hlen
  · intro j' hj'
    have := hnir j' hj'
    simpa [attachResourceAt_length] using this
  · intro j' hL hj'
    exact hrni j' hL (by simpa [attachResourceAt_length] using hj')
  · refine List.Perm.trans (attach_flatten_perm r cs j hjlt) ?_
    refine List.Perm.trans (List.Perm.cons _ hperm) ?_
    rw [List.map_append]
    exact (List.perm_append_singleton _ _).symm
  · intro j' c' hj'L hget r'' hr''
    rw [attachResourceAt_getElem?] at hget
    by_cases hjj : j' = j
    · subst hjj
      rw [if_pos rfl, hcj] at hget
      have hc' : c' = attachToCluster r c := by
        simpa using hget.symm
      subst hc'
      have hres : (attachToCluster r c).resources.getD [] =
          c.resources.getD [] ++ [{ r with notes := c.notes }] := by
        simp [attachToCluster]
      rw [hres] at hr''
      rcases List.mem_append.mp hr'' with hin | hin
      · exact horig j' c hj'L hcj r'' hin
      · have : r'' = { r with notes := c.notes } := by simpa using hin
        subst this
        exact hdle
    · rw [if_neg hjj] at hget
      exact horig j' c' hj'L hget r'' hr''
  · intro j'' c'' hmem hget
    rw [attachResourceAt_getElem?] at hget
    by_cases hjj : j'' = j
    · subst hjj
      rw [if_pos rfl, hcj] at hget
      have hc' : c'' = attachToCluster r c := by
        simpa using hget.symm
      subst hc'
      rcases hsyn j'' c hmem hcj with ⟨r₀, rs, hres, hx, hy, hz, hall⟩
      refine ⟨r₀, rs ++ [{ r with notes := c.notes }], ?_, hx, hy, hz, ?_⟩
      · simp [attachToCluster, hres]
      · intro r'' hr''
        rcases List.mem_cons.mp hr'' with h1 | h1
        · exact hall r'' (h1 ▸ List.mem_cons_self _ _)
        · rcases List.mem_append.mp h1 with h2 | h2
          · exact hall r'' (List.mem_cons_of_mem _ h2)
          · have : r'' = { r with notes := c.notes } := by simpa using h2
            subst this
            have he : check_distance { r with notes := c.notes } r₀ =
                check_distance r r₀ := rfl
            rw [he, check_distance_to_anchor r c r₀ hx hy hz]
            exact hdle
    · rw [if_neg hjj] at hget
      exact hsyn j'' c'' hmem hget

theorem assign_synth_inv (L : ℕ) (done : List Coordinate)
    (cs : List Cluster) (ni : List ℕ) (r : Coordinate) (tag : Str)
    (h : AssemblyInv L done (cs, ni)) :
    AssemblyInv L (done ++ [r])
      (attachResourceAt (cs ++ [create_cluster_for_resource r tag])
        cs.length r, ni ++ [cs.length]) := by
  obtain ⟨hlen, hnir, hrni, hperm, horig, hsyn⟩ := h
  dsimp only at hlen hnir hrni hperm horig hsyn
  rw [attachResourceAt_append_last]
  set ac := attachToCluster r (create_cluster_for_resource r tag) with hac
  refine ⟨?_, ?_, ?_, ?_, ?_, ?_⟩
  · simp only [List.length_append, List.length_cons, List.length_nil]
    omega
  · intro j' hj'
    rcases List.mem_append.mp hj' with hin | hin
    · have := hnir j' hin
      simp only [List.length_append, List.length_cons, List.length_nil]
      omega
    · have : j' = cs.length := by simpa using hin
      subst this
      simp only [List.length_append, List.length_cons, List.length_nil]
      omega
  · intro j' hL hj'
    simp only [List.length_append, List.length_cons, List.length_nil] at hj'
    by_cases hlt : j' < cs.length
    · exact List.mem_append.mpr (Or.inl (hrni j' hL hlt))
    · have : j' = cs.length := by omega
      subst this
      exact List.mem_append.mpr (Or.inr (List.mem_singleton.mpr rfl))
  · rw [List.map_append]
    have hac2 : ((ac.resources.getD []).map resKey) = [resKey r] := by
      simp [hac, attachToCluster, create_cluster_for_resource, resKey_attach]
    simp only [List.map_cons, List.map_nil, hac2, List.flatten_append,
      List.flatten_cons, List.flatten_nil, List.append_nil]
    rw [List.map_append]
    exact List.Perm.append hperm (List.Perm.refl _)
  · intro j' c' hj'L hget r'' hr''
    rw [List.getElem?_append, if_pos (by omega : j' < cs.length)] at hget
    exact horig j' c' hj'L hget r'' hr''
  · intro j'' c'' hmem hget
    rcases List.mem_append.mp hmem with hin | hin
    · have hlt : j'' < cs.length := (hnir j'' hin).2
      rw [List.getElem?_append, if_pos hlt] at hget
      exact hsyn j'' c'' hin hget
    · have : j'' = cs.length := by simpa using hin
      subst this
      rw [List.getElem?_concat_length] at hget
      have hc' : c'' = ac := by simpa using hget.symm
      subst hc'
      refine ⟨{ r with notes := ac.notes }, [], ?_, rfl, rfl, rfl, ?_⟩
      · simp [hac, attachToCluster, create_cluster_for_resource]
      · intro r'' hr''
        have : r'' = { r with notes := ac.notes } := by simpa using hr''
        subst this
        have h0 : check_distance { r with notes := ac.notes }
            { r with notes := ac.notes } = 0 := by
          apply check_distance_eq_zero_of_le
          simp [sqDist]
        rw [h0]
        exact Nat.zero_le _

theorem assign_step_inv (gen : ℕ → Str) (L : ℕ) (done : List Coordinate)
    (cs : List Cluster) (ni : List ℕ) (r : Coordinate)
    (h : AssemblyInv L done (cs, ni)) :
    AssemblyInv L (done ++ [r]) (assignResource gen (cs, ni) r) := by
  unfold assignResource
  dsimp only
  cases hfn : find_nearest_cluster r cs with
  | some dj =>
    rcases dj with ⟨d, j⟩
    dsimp only
    rcases find_nearest_spec r cs d j hfn with ⟨c, hcj, -, hd⟩
    by_cases hfar : DUPLICATE_CLUSTER_DISTANCE_METERS < d
    · rw [if_pos hfar]
      exact assign_synth_inv L done cs ni r _ h
    · rw [if_neg hfar]
      push_neg at hfar
      exact assign_attach_inv L done cs ni r j c h hcj (hd ▸ hfar)
  | none =>
    dsimp only
    exact assign_synth_inv L done cs ni r _ h

theorem assign_foldl_inv (gen : ℕ → Str) (L : ℕ) :
    ∀ (rs : List Coordinate) (done : List Coordinate)
      (st : List Cluster × List ℕ),
      AssemblyInv L done st →
      AssemblyInv L (done ++ rs) (rs.foldl (assignResource gen) st) := by
  intro rs
  induction rs with
  | nil => intro done st h; simpa using h
  | cons r rs' ih =>
    intro done st h
    obtain ⟨cs, ni⟩ := st
    have h1 := assign_step_inv gen L done cs ni r h
    have h2 := ih (done ++ [r]) (assignResource gen (cs, ni) r) h1
    simpa [List.append_assoc] using h2

theorem assembly_init_inv (clusters : List Coordinate) :
    AssemblyInv clusters.length []
      (clusters.map (fun c =>
        { c.toCluster with notes := sanitize_folder_name c.name }), []) := by
  refine ⟨by simp, by simp, ?_, ?_, ?_, by simp⟩
  · intro j hL hj
    simp only [List.length_map] at hj
    omega
  · dsimp only
    have hmap : (clusters.map (fun c =>
        { c.toCluster with notes := sanitize_folder_name c.name })).map
        (fun c => (c.resources.getD []).map resKey) =
        clusters.map (fun _ => ([] : List Coordinate)) := by
      rw [List.map_map]
      rfl
    rw [hmap]
    have : (clusters.map (fun _ => ([] : List Coordinate))).flatten = [] := by
      induction clusters with
      | nil => rfl
      | cons c rest ih => simp [ih]
    simp [this]
  · intro j c hjL hget r hr
    dsimp only at hget
    rcases List.getElem?_eq_some.mp hget with ⟨hlt, hval⟩
    rw [List.getElem_map] at hval
    rw [← hval] at hr
    simp [Coordinate.toCluster] at hr

theorem recenterAt_map_res (cs : List Cluster) (j : ℕ) :
    (recenterAt cs j).map (fun c => (c.resources.getD []).map resKey) =
      cs.map (fun c => (c.resources.getD []).map resKey) := by
  induction cs generalizing j with
  | nil => rfl
  | cons c rest ih =>
    cases j with
    | zero => simp [recenterAt, recenterCluster_resources]
    | succ j => simp [recenterAt, ih]

theorem foldl_recenterAt_map_res (ni : List ℕ) :
    ∀ cs : List Cluster,
      (ni.foldl recenterAt cs).map (fun c => (c.resources.getD []).map resKey) =
        cs.map (fun c => (c.resources.getD []).map resKey) := by
  induction ni with
  | nil => intro cs; rfl
  | cons a ni' ih =>
    intro cs
    simp only [List.foldl_cons]
    rw [ih, recenterAt_map_res]

theorem cluster_coordinates_inv (clusters resources : List Coordinate)
    (gen : ℕ → Str) :
    AssemblyInv clusters.length resources
      (resources.foldl (assignResource gen)
        (clusters.map (fun c =>
          { c.toCluster with notes := sanitize_folder_name c.name }), [])) := by
  have h := assign_foldl_inv gen clusters.length resources []
    (clusters.map (fun c =>
      { c.toCluster with notes := sanitize_folder_name c.name }), [])
    (assembly_init_inv clusters)
  simpa using h

theorem cluster_coordinates_unfold (clusters resources : List Coordinate)
    (gen : ℕ → Str) :
    cluster_coordinates clusters resources gen =
      ((resources.foldl (assignResource gen)
          (clusters.map (fun c =>
            { c.toCluster with notes := sanitize_folder_name c.name }),
           [])).2.foldl recenterAt
        (resources.foldl (assignResource gen)
          (clusters.map (fun c =>
            { c.toCluster with notes := sanitize_folder_name c.name }),
           [])).1,
       (resources.foldl (assignResource gen)
          (clusters.map (fun c =>
            { c.toCluster with notes := sanitize_folder_name c.name }),
           [])).2) := rfl

theorem c4_from_inv (L : ℕ) (done : List Coordinate)
    (st : List Cluster × List ℕ) (h : AssemblyInv L done st) (j : ℕ)
    (hj : j ∈ st.2) :
    ∃ c rs, (st.2.foldl recenterAt st.1)[j]? = some c ∧
      c.resources = some rs ∧ rs ≠ [] ∧
      c.x = pyRound2 ((rs.map Coordinate.x).sum / (rs.length : ℚ)) ∧
      c.y = pyRound2 ((rs.map Coordinate.y).sum / (rs.length : ℚ)) ∧
      c.z = pyRound2 ((rs.map Coordinate.z).sum / (rs.length : ℚ)) := by
  obtain ⟨hlen, hnir, hrni, hperm, horig, hsyn⟩ := h
  have hjlt : j < st.1.length := (hnir j hj).2
  have hc1 : st.1[j]? = some (st.1.get ⟨j, hjlt⟩) :=
    List.getElem?_eq_some.mpr ⟨hjlt, rfl⟩
  rcases hsyn j _ hj hc1 with ⟨r₀, rs', hres, -, -, -, -⟩
  have hfin : (st.2.foldl recenterAt st.1)[j]? =
      some (recenterCluster (st.1.get ⟨j, hjlt⟩)) := by
    rw [foldl_recenterAt_getElem?_mem st.2 st.1 j hj, hc1]
    rfl
  refine ⟨recenterCluster (st.1.get ⟨j, hjlt⟩), r₀ :: rs', hfin, ?_, by simp,
    ?_, ?_, ?_⟩
  · rw [recenterCluster_resources]
    exact hres
  · show pyRound2 _ = _
    rw [hres]
    rfl
  · show pyRound2 _ = _
    rw [hres]
    rfl
  · show pyRound2 _ = _
    rw [hres]
    rfl

/-- C4: every cluster synthesized during assembly ends Step 3 with each
axis of its position equal to the arithmetic mean of the corresponding
axis of its attached resources, rounded (half to even) to 2 decimal
places.  Attached resources are final — membership never changes after
Step 2 — and a synthesized cluster always has at least one (its
triggering orphan). -/
theorem c4_synthesized_cluster_centroid (clusters resources : List Coordinate)
    (gen : ℕ → Str) (j : ℕ)
    (hj : j ∈ (cluster_coordinates clusters resources gen).2) :
    ∃ c rs, (cluster_coordinates clusters resources gen).1[j]? = some c ∧
      c.resources = some rs ∧ rs ≠ [] ∧
      c.x = pyRound2 ((rs.map Coordinate.x).sum / (rs.length : ℚ)) ∧
      c.y = pyRound2 ((rs.map Coordinate.y).sum / (rs.length : ℚ)) ∧
      c.z = pyRound2 ((rs.map Coordinate.z).sum / (rs.length : ℚ)) := by
  rw [cluster_coordinates_unfold] at hj ⊢
  exact c4_from_inv clusters.length resources _
    (cluster_coordinates_inv clusters resources gen) j hj

/-- C4 witness: a single orphan resource synthesizes cluster 0, whose
final position is the rounded centroid of its one resource. -/
theorem c4_synthesized_cluster_centroid_witness :
    0 ∈ (cluster_coordinates [] [cexOrigin] (fun _ => "WXYZ".data)).2 ∧
    (∃ c rs,
      (cluster_coordinates [] [cexOrigin] (fun _ => "WXYZ".data)).1[0]? =
        some c ∧
      c.resources = some rs ∧ rs ≠ [] ∧
      c.x = pyRound2 ((rs.map Coordinate.x).sum / (rs.length : ℚ)) ∧
      c.y = pyRound2 ((rs.map Coordinate.y).sum / (rs.length : ℚ)) ∧
      c.z = pyRound2 ((rs.map Coordinate.z).sum / (rs.length : ℚ))) :=
  ⟨by decide,
   c4_synthesized_cluster_centroid [] [cexOrigin] (fun _ => "WXYZ".data) 0
     (by decide)⟩

theorem c3_from_inv (L : ℕ) (done : List Coordinate)
    (st : List Cluster × List ℕ) (h : AssemblyInv L done st) :
    (((st.2.foldl recenterAt st.1).map
        (fun c => (c.resources.getD []).map resKey)).flatten).Perm
      (done.map resKey) ∧
    (∀ j c, j < L → (st.2.foldl recenterAt st.1)[j]? = some c →
      ∀ r ∈ c.resources.getD [],
        check_distance r (clusterToCoordinate c) ≤
          DUPLICATE_CLUSTER_DISTANCE_METERS) ∧
    (∀ j ∈ st.2, ∃ c r₀ rs,
      (st.2.foldl recenterAt st.1)[j]? = some c ∧
      c.resources = some (r₀ :: rs) ∧
      ∀ r ∈ r₀ :: rs,
        check_distance r r₀ ≤ DUPLICATE_CLUSTER_DISTANCE_METERS) := by
  obtain ⟨hlen, hnir, hrni, hperm, horig, hsyn⟩ := h
  refine ⟨?_, ?_, ?_⟩
  · rw [foldl_recenterAt_map_res]
    exact hperm
  · intro j c hjL hget r hr
    have hnm : j ∉ st.2 := by
      intro hmem
      have := (hnir j hmem).1
      omega
    rw [foldl_recenterAt_getElem?_not_mem st.2 st.1 j hnm] at hget
    exact horig j c hjL hget r hr
  · intro j hj
    have hjlt : j < st.1.length := (hnir j hj).2
    have hc1 : st.1[j]? = some (st.1.get ⟨j, hjlt⟩) :=
      List.getElem?_eq_some.mpr ⟨hjlt, rfl⟩
    rcases hsyn j _ hj hc1 with ⟨r₀, rs', hres, -, -, -, hall⟩
    refine ⟨recenterCluster (st.1.get ⟨j, hjlt⟩), r₀, rs', ?_, ?_, hall⟩
    · rw [foldl_recenterAt_getElem?_mem st.2 st.1 j hj, hc1]
      rfl
    · rw [recenterCluster_resources]
      exact hres

/-- C3 (amended): after assembly, every resource-marker belongs to
exactly one cluster's `resources` sequence (their concatenation is a
permutation of the inputs, modulo the rewritten `notes` tag); a resource
attached to an original cluster-marker lies within the 500 km assignment
radius of that cluster's (never moved) position; and a synthesized
cluster was created at the exact position of its first attached resource
(the orphan that triggered it), with every one of its resources within
the 500 km radius of that synthesis position.  After Step 3 recenters a
synthesized cluster to its members' centroid, its final position can
however lie farther than 500 km from some of its resources, which is
what the counterexample exhibits against the claim's unqualified
radius/creation-position disjunction. -/
theorem c3_assembly_coverage (clusters resources : List Coordinate)
    (gen : ℕ → Str) :
    (((cluster_coordinates clusters resources gen).1.map
        (fun c => (c.resources.getD []).map resKey)).flatten).Perm
      (resources.map resKey) ∧
    (∀ j c, j < clusters.length →
      (cluster_coordinates clusters resources gen).1[j]? = some c →
      ∀ r ∈ c.resources.getD [],
        check_distance r (clusterToCoordinate c) ≤
          DUPLICATE_CLUSTER_DISTANCE_METERS) ∧
    (∀ j ∈ (cluster_coordinates clusters resources gen).2, ∃ c r₀ rs,
      (cluster_coordinates clusters resources gen).1[j]? = some c ∧
      c.resources = some (r₀ :: rs) ∧
      ∀ r ∈ r₀ :: rs,
        check_distance r r₀ ≤ DUPLICATE_CLUSTER_DISTANCE_METERS) := by
  rw [cluster_coordinates_unfold]
  exact c3_from_inv clusters.length resources _
    (cluster_coordinates_inv clusters resources gen)

/-- C3 witness: the orphan resource synthesizes cluster 0; applying the
theorem at that input yields its coverage facts. -/
theorem c3_assembly_coverage_witness :
    0 ∈ (cluster_coordinates [] [cexOrigin] (fun _ => "WXYZ".data)).2 ∧
    (∃ c r₀ rs,
      (cluster_coordinates [] [cexOrigin] (fun _ => "WXYZ".data)).1[0]? =
        some c ∧
      c.resources = some (r₀ :: rs) ∧
      ∀ r ∈ r₀ :: rs,
        check_distance r r₀ ≤ DUPLICATE_CLUSTER_DISTANCE_METERS) :=
  ⟨by decide,
   (c3_assembly_coverage [] [cexOrigin] (fun _ => "WXYZ".data)).2.2 0
     (by decide)⟩

theorem roundSqrt_500000sq : roundSqrt 250000000000 = 500000 := by
  have h := roundSqrt_sq 500000
  norm_num at h
  exact h

theorem roundSqrt_625000sq : roundSqrt 390625000000 = 625000 := by
  have h := roundSqrt_sq 625000
  norm_num at h
  exact h

theorem c3_run_eval :
    cluster_coordinates [] [c3r1, c3r2, c3r3, c3r4] c3gen =
      ([c3Final], [0]) := by
  norm_num [cluster_coordinates, assignResource, find_nearest_cluster,
    nearestStep, attachResourceAt, attachToCluster,
    create_cluster_for_resource, sanitize_folder_name, clusterMarker,
    clusterToCoordinate, recenterAt, recenterCluster, pyRound2, pyRound,
    check_distance_eq_roundSqrt, sqDist, roundSqrt_500000sq,
    roundSqrt_625000sq, c3r1, c3r2, c3r3, c3r4, c3gen, c3note, c3Mid,
    c3Final, cexOrigin, List.enum, List.enumFrom,
    DUPLICATE_CLUSTER_DISTANCE_METERS]
  decide

/-- C3 counterexample: an orphan at the origin synthesizes a cluster
there; three more resources 500 km away attach to it (distance exactly
at the radius); Step 3 then recenters the cluster to x = 125000, which
is 625 km from the second resource — farther than the assignment radius
— and the cluster was not synthesized at that resource's position
(its synthesis position is its first resource's, the origin).  So the
claim's disjunction fails for the final state. -/
theorem c3_recentered_radius_counterexample :
    ¬ c3ClaimProp [] [c3r1, c3r2, c3r3, c3r4] c3gen := by
  intro h
  obtain ⟨-, h2⟩ := h
  have hget : (cluster_coordinates [] [c3r1, c3r2, c3r3, c3r4] c3gen).1[0]? =
      some c3Final := by
    rw [c3_run_eval]
    rfl
  have hr : ({ c3r2 with notes := c3note } : Coordinate) ∈
      c3Final.resources.getD [] := by
    simp [c3Final, c3Mid]
  have hinst := h2 0 c3Final hget _ hr
  rcases hinst with hle | ⟨-, r₀, rs, hres, hx, -, -⟩
  · have hd : check_distance { c3r2 with notes := c3note }
        (clusterToCoordinate c3Final) = 625000 := by
      apply check_distance_of_sq
      norm_num [sqDist, clusterToCoordinate, c3Final, c3Mid, c3r2, cexOrigin]
    rw [hd] at hle
    norm_num [DUPLICATE_CLUSTER_DISTANCE_METERS] at hle
  · have hhead : r₀ = { c3r1 with notes := c3note } := by
      have hres' : some ([{ c3r1 with notes := c3note },
          { c3r2 with notes := c3note }, { c3r3 with notes := c3note },
          { c3r4 with notes := c3note }] : List Coordinate) =
          some (r₀ :: rs) := by
        rw [← hres]
        rfl
      simp only [Option.some.injEq, List.cons.injEq] at hres'
      exact hres'.1.symm
    rw [hhead] at hx
    norm_num [c3r1, c3r2, cexOrigin] at hx

theorem headerStep_fold_hdr (abbr : Str) :
    ∀ (tbl : List Sector) (st : List Ev × Option Str),
      (∀ e ∈ st.1, ∃ h, e = Ev.hdr h) →
      ∀ e ∈ (tbl.foldl (headerStep abbr) st).1, ∃ h, e = Ev.hdr h := by
  intro tbl
  induction tbl with
  | nil => intro st hst e he; exact hst e he
  | cons s tbl' ih =>
    intro st hst e he
    refine ih (headerStep abbr st s) ?_ e he
    intro e' he'
    unfold headerStep at he'
    by_cases h1 : s.abbr = abbr
    · rw [if_pos h1] at he'
      by_cases h2 : st.2 ≠ some s.header
      · rw [if_pos h2] at he'
        rcases List.mem_append.mp he' with hin | hin
        · exact hst e' hin
        · exact ⟨s.header, by simpa using hin⟩
      · rw [if_neg h2] at he'
        exact hst e' he'
    · rw [if_neg h1] at he'
      exact hst e' he'

theorem emitHeader_all_hdr (cur : Option Str) (abbr : Str) :
    ∀ e ∈ (emitHeader cur abbr).1, ∃ h, e = Ev.hdr h := by
  exact headerStep_fold_hdr abbr SECTORS ([], cur) (by intro e he; cases he)

theorem emit_fold_sources (full : List Cluster) :
    ∀ (cs : List Cluster) (st : List Ev × Option Str),
      (∀ c ∈ cs, c ∈ full) →
      (∀ c', Ev.cline c' ∈ st.1 → c'.resources.isSome) →
      (∀ r, Ev.rline r ∈ st.1 →
        ∃ c l, c ∈ full ∧ c.resources = some l ∧ r ∈ sortResources l) →
      (∀ c', Ev.cline c' ∈ (cs.foldl emitCluster st).1 →
        c'.resources.isSome) ∧
      (∀ r, Ev.rline r ∈ (cs.foldl emitCluster st).1 →
        ∃ c l, c ∈ full ∧ c.resources = some l ∧ r ∈ sortResources l) := by
  intro cs
  induction cs with
  | nil => intro st _ h1 h2; exact ⟨h1, h2⟩
  | cons c cs' ih =>
    intro st hsub h1 h2
    simp only [List.foldl_cons]
    refine ih (emitCluster st c) (fun d hd => hsub d (List.mem_cons_of_mem c hd))
      ?_ ?_
    · intro c' hc'
      unfold emitCluster at hc'
      cases hres : c.resources with
      | some rs =>
        rw [hres] at hc'
        dsimp only at hc'
        rcases List.mem_append.mp hc' with hin | hin
        · rcases List.mem_append.mp hin with hin2 | hin2
          · exact h1 c' hin2
          · rcases emitHeader_all_hdr st.2 c.sector _ hin2 with ⟨h, hh⟩
            cases hh
        · rcases List.mem_cons.mp hin with hin2 | hin2
          · simp only [Ev.cline.injEq] at hin2
            rw [hin2, hres]
            rfl
          · rcases List.mem_append.mp hin2 with hin3 | hin3
            · rcases List.mem_map.mp hin3 with ⟨r, -, hr⟩
              cases hr
            · simp at hin3
      | none =>
        rw [hres] at hc'
        dsimp only at hc'
        rcases List.mem_append.mp hc' with hin | hin
        · exact h1 c' hin
        · rcases emitHeader_all_hdr st.2 c.sector _ hin with ⟨h, hh⟩
          cases hh
    · intro r hr
      unfold emitCluster at hr
      cases hres : c.resources with
      | some rs =>
        rw [hres] at hr
        dsimp only at hr
        rcases List.mem_append.mp hr with hin | hin
        · rcases List.mem_append.mp hin with hin2 | hin2
          · exact h2 r hin2
          · rcases emitHeader_all_hdr st.2 c.sector _ hin2 with ⟨h, hh⟩
            cases hh
        · rcases List.mem_cons.mp hin with hin2 | hin2
          · cases hin2
          · rcases List.mem_append.mp hin2 with hin3 | hin3
            · rcases List.mem_map.mp hin3 with ⟨r', hr', hrr⟩
              simp only [Ev.rline.injEq] at hrr
              exact ⟨c, rs, hsub c (List.mem_cons_self c cs'), hres,
                hrr ▸ hr'⟩
            · simp at hin3
      | none =>
        rw [hres] at hr
        dsimp only at hr
        rcases List.mem_append.mp hr with hin | hin
        · exact h2 r hin
        · rcases emitHeader_all_hdr st.2 c.sector _ hin with ⟨h, hh⟩
          cases hh

/-- C10: a cluster-marker whose `resources` key was never created is
omitted entirely from the output — no cluster line for it is ever
written (cluster lines only carry clusters with a `resources` key), and
every resource line belongs to some cluster that has resources — while
its zone's section header may nevertheless still be written before the
omitted cluster, as the concrete one-empty-cluster run shows: the output
is exactly the zone header, with no cluster or resource lines. -/
theorem c10_resourceless_cluster_omitted :
    (∀ (cs : List Cluster) (c : Cluster), c.resources = none →
      Ev.cline c ∉ emitMain cs) ∧
    (∀ (cs : List Cluster) (r : Coordinate), Ev.rline r ∈ emitMain cs →
      ∃ c l, c ∈ cs ∧ c.resources = some l ∧ r ∈ sortResources l) ∧
    emitMain [c10empty] = [Ev.hdr "Zarion Space PvE".data] := by
  refine ⟨?_, ?_, ?_⟩
  case refine_3 =>
    show emitClusters (sortClusters [c10empty]) = _
    rw [show sortClusters [c10empty] = [c10empty] from
      List.mergeSort_singleton c10empty]
    decide
  · intro cs c hc hmem
    have h := (emit_fold_sources (sortClusters cs) (sortClusters cs)
      ([], none) (fun d hd => hd) (by intro c' hc'; cases hc')
      (by intro r hr; cases hr)).1 c hmem
    rw [hc] at h
    cases h
  · intro cs r hr
    have h := (emit_fold_sources (sortClusters cs) (sortClusters cs)
      ([], none) (fun d hd => hd) (by intro c' hc'; cases hc')
      (by intro r' hr'; cases hr')).2 r hr
    rcases h with ⟨c, l, hmem, hres, hrl⟩
    exact ⟨c, l, ((List.mergeSort_perm cs _).mem_iff).mp hmem, hres, hrl⟩

/-- C10 witness: the concrete resource-less cluster's line is absent
from its own run's output. -/
theorem c10_resourceless_cluster_omitted_witness :
    c10empty.resources = none ∧ Ev.cline c10empty ∉ emitMain [c10empty] :=
  ⟨rfl, c10_resourceless_cluster_omitted.1 [c10empty] c10empty rfl⟩

theorem sectorAbbrs_nodup : sectorAbbrs.Nodup := by decide

theorem sector_index_inj :
    ∀ z1 ∈ sectorAbbrs, ∀ z2 ∈ sectorAbbrs,
      sector_index z1 = sector_index z2 → z1 = z2 := by decide

theorem headerOfD_inj :
    ∀ z1 ∈ sectorAbbrs, ∀ z2 ∈ sectorAbbrs,
      headerOfD z1 = headerOfD z2 → z1 = z2 := by decide

theorem headerStep_fold_no_match (z : Str) :
    ∀ (tbl : List Sector) (st : List Ev × Option Str),
      (∀ s ∈ tbl, s.abbr ≠ z) → tbl.foldl (headerStep z) st = st := by
  intro tbl
  induction tbl with
  | nil => intro st _; rfl
  | cons s tbl' ih =>
    intro st hno
    simp only [List.foldl_cons]
    have h1 : headerStep z st s = st := by
      unfold headerStep
      rw [if_neg (hno s (List.mem_cons_self s tbl'))]
    rw [h1]
    exact ih st (fun t ht => hno t (List.mem_cons_of_mem s ht))

theorem exists_sector_split (z : Str) (hz : z ∈ sectorAbbrs) :
    ∃ pre s post, SECTORS = pre ++ s :: post ∧ s.abbr = z ∧
      (∀ t ∈ pre, t.abbr ≠ z) ∧ (∀ t ∈ post, t.abbr ≠ z) ∧
      s.header = headerOfD z := by
  rcases List.mem_map.mp hz with ⟨s, hsmem, habbr⟩
  rcases List.append_of_mem hsmem with ⟨pre, post, hsplit⟩
  have hnd : (SECTORS.map Sector.abbr).Nodup := sectorAbbrs_nodup
  rw [hsplit, List.map_append, List.map_cons] at hnd
  have hnotpre : s.abbr ∉ pre.map Sector.abbr := by
    intro hmem
    have := (List.nodup_append.mp hnd).2.2
    exact this hmem (List.mem_cons_self _ _)
  have hnotpost : s.abbr ∉ post.map Sector.abbr := by
    have := (List.nodup_append.mp hnd).2.1
    exact (List.nodup_cons.mp this).1
  refine ⟨pre, s, post, hsplit, habbr, ?_, ?_, ?_⟩
  · intro t ht hta
    exact hnotpre (habbr ▸ hta ▸ List.mem_map_of_mem Sector.abbr ht)
  · intro t ht hta
    exact hnotpost (habbr ▸ hta ▸ List.mem_map_of_mem Sector.abbr ht)
  · unfold headerOfD
    rw [hsplit, List.find?_append]
    have hprenone : pre.find? (fun t => decide (t.abbr = z)) = none := by
      rw [List.find?_eq_none]
      intro t ht
      simp only [decide_eq_true_eq]
      intro hta
      exact hnotpre (habbr ▸ hta ▸ List.mem_map_of_mem Sector.abbr ht)
    rw [hprenone]
    have hfind : List.find? (fun t => decide (t.abbr = z)) (s :: post) =
        some s := List.find?_cons_of_pos _ (by simp [habbr])
    simp [hfind]

theorem emitHeader_new (z : Str) (cur : Option Str) (hz : z ∈ sectorAbbrs)
    (hne : cur ≠ some (headerOfD z)) :
    emitHeader cur z = ([Ev.hdr (headerOfD z)], some (headerOfD z)) := by
  rcases exists_sector_split z hz with ⟨pre, s, post, hsplit, habbr, hpre, hpost, hhd⟩
  unfold emitHeader
  rw [hsplit, List.foldl_append, headerStep_fold_no_match z pre _ hpre,
    List.foldl_cons]
  have hstep : headerStep z ([], cur) s =
      ([Ev.hdr (headerOfD z)], some (headerOfD z)) := by
    unfold headerStep
    rw [if_pos habbr, if_pos (by rw [hhd]; exact hne)]
    rw [hhd]
    rfl
  rw [hstep, headerStep_fold_no_match z post _ hpost]

theorem emitHeader_old (z : Str) (hz : z ∈ sectorAbbrs) :
    emitHeader (some (headerOfD z)) z = ([], some (headerOfD z)) := by
  rcases exists_sector_split z hz with ⟨pre, s, post, hsplit, habbr, hpre, hpost, hhd⟩
  unfold emitHeader
  rw [hsplit, List.foldl_append, headerStep_fold_no_match z pre _ hpre,
    List.foldl_cons]
  have hstep : headerStep z ([], some (headerOfD z)) s =
      ([], some (headerOfD z)) := by
    unfold headerStep
    rw [if_pos habbr, if_neg (by rw [hhd]; simp)]
  rw [hstep, headerStep_fold_no_match z post _ hpost]

theorem emitCluster_eq (st : List Ev × Option Str) (c : Cluster) :
    emitCluster st c = (st.1 ++ (emitHeader st.2 c.sector).1 ++ blockOf c,
      (emitHeader st.2 c.sector).2) := by
  unfold emitCluster blockOf
  cases c.resources with
  | some rs => simp
  | none => simp

theorem emit_run (z : Str) (hz : z ∈ sectorAbbrs) :
    ∀ (run : List Cluster) (evs : List Ev),
      (∀ c ∈ run, c.sector = z) →
      run.foldl emitCluster (evs, some (headerOfD z)) =
        (evs ++ run.flatMap blockOf, some (headerOfD z)) := by
  intro run
  induction run with
  | nil => intro evs _; simp
  | cons c run' ih =>
    intro evs hall
    have hzc : c.sector = z := hall c (List.mem_cons_self c run')
    simp only [List.foldl_cons]
    rw [emitCluster_eq]
    dsimp only
    rw [hzc, emitHeader_old z hz]
    have := ih (evs ++ [] ++ blockOf c)
      (fun d hd => hall d (List.mem_cons_of_mem c hd))
    rw [this]
    simp

theorem dropWhile_head_false {α : Type} (p : α → Bool) :
    ∀ (l : List α) (c0 : α) (rest0 : List α),
      l.dropWhile p = c0 :: rest0 → p c0 = false := by
  intro l
  induction l with
  | nil => intro c0 rest0 h; cases h
  | cons a l' ih =>
    intro c0 rest0 h
    rw [List.dropWhile_cons] at h
    by_cases hp : p a = true
    · rw [if_pos hp] at h
      exact ih c0 rest0 h
    · rw [if_neg hp] at h
      have : a = c0 := (List.cons.injEq .. ▸ h).1
      rw [← this]
      exact Bool.not_eq_true _ ▸ hp

theorem chunkSectors_cons (c : Cluster) (rest : List Cluster) :
    chunkSectors (c :: rest) =
      (c.sector, c :: rest.takeWhile (fun d => d.sector = c.sector)) ::
        chunkSectors (rest.dropWhile (fun d => d.sector = c.sector)) := by
  rw [chunkSectors]

theorem curAfter_const (z : Str) (l : List Cluster) (hne : l ≠ [])
    (hall : ∀ c ∈ l, c.sector = z) (cur : Option Str) :
    curAfter cur l = some (headerOfD z) := by
  unfold curAfter
  rw [List.getLast?_eq_getLast l hne]
  simp only
  rw [hall (l.getLast hne) (List.getLast_mem hne)]

theorem curAfter_append_right (l₁ l₂ : List Cluster) (cur cur' : Option Str)
    (h : l₂ ≠ []) : curAfter cur (l₁ ++ l₂) = curAfter cur' l₂ := by
  unfold curAfter
  rw [List.getLast?_append, List.getLast?_eq_getLast l₂ h]
  rfl


theorem emit_chunks :
    ∀ (n : ℕ) (cs' : List Cluster) (evs : List Ev) (cur : Option Str),
      cs'.length ≤ n →
      (∀ c ∈ cs', c.sector ∈ sectorAbbrs) →
      (∀ c0, cs'.head? = some c0 → cur ≠ some (headerOfD c0.sector)) →
      cs'.foldl emitCluster (evs, cur) =
        (evs ++ (chunkSectors cs').flatMap
          (fun zr => Ev.hdr (headerOfD zr.1) :: zr.2.flatMap blockOf),
         curAfter cur cs') := by
  intro n
  induction n with
  | zero =>
    intro cs' evs cur hlen _ _
    have : cs' = [] := List.eq_nil_of_length_eq_zero (Nat.le_zero.mp hlen)
    subst this
    simp [chunkSectors, curAfter]
  | succ n ih =>
    intro cs' evs cur hlen hsec hhead
    cases cs' with
    | nil => simp [chunkSectors, curAfter]
    | cons c rest =>
      have hz : c.sector ∈ sectorAbbrs := hsec c (List.mem_cons_self c rest)
      have hcur : cur ≠ some (headerOfD c.sector) := hhead c rfl
      have hruns : ∀ d ∈ rest.takeWhile (fun e => e.sector = c.sector),
          d.sector = c.sector := fun d hd => by
        simpa using List.mem_takeWhile_imp hd
      have h1 : (c :: rest).foldl emitCluster (evs, cur) =
          rest.foldl emitCluster
            (evs ++ [Ev.hdr (headerOfD c.sector)] ++ blockOf c,
             some (headerOfD c.sector)) := by
        rw [List.foldl_cons, emitCluster_eq, emitHeader_new c.sector cur hz hcur]
      have h2 : rest.foldl emitCluster
          (evs ++ [Ev.hdr (headerOfD c.sector)] ++ blockOf c,
           some (headerOfD c.sector)) =
          (rest.dropWhile (fun e => e.sector = c.sector)).foldl emitCluster
            (evs ++ [Ev.hdr (headerOfD c.sector)] ++ blockOf c ++
              (rest.takeWhile (fun e => e.sector = c.sector)).flatMap blockOf,
             some (headerOfD c.sector)) := by
        conv_lhs => rw [← List.takeWhile_append_dropWhile
          (fun e => e.sector = c.sector) rest]
        rw [List.foldl_append, emit_run c.sector hz _ _ hruns]
      have hrestlen : rest.length ≤ n := by
        simp only [List.length_cons] at hlen
        omega
      have hdroplen :
          (rest.dropWhile (fun e => e.sector = c.sector)).length ≤ n :=
        le_trans (List.dropWhile_sublist _).length_le hrestlen
      have hdropsec : ∀ d ∈ rest.dropWhile (fun e => e.sector = c.sector),
          d.sector ∈ sectorAbbrs := fun d hd =>
        hsec d (List.mem_cons_of_mem c ((List.dropWhile_sublist _).subset hd))
      have hdrophead : ∀ c0,
          (rest.dropWhile (fun e => e.sector = c.sector)).head? = some c0 →
          (some (headerOfD c.sector) : Option Str) ≠
            some (headerOfD c0.sector) := by
        intro c0 hc0 heq
        cases hdw : rest.dropWhile (fun e => e.sector = c.sector) with
        | nil => rw [hdw] at hc0; cases hc0
        | cons d0 rest0 =>
          rw [hdw] at hc0
          have hd0 : d0 = c0 := by simpa using hc0
          subst hd0
          have hfalse := dropWhile_head_false _ rest d0 rest0 hdw
          have hd0ne : d0.sector ≠ c.sector := by simpa using hfalse
          have hd0mem : d0.sector ∈ sectorAbbrs :=
            hdropsec d0 (hdw ▸ List.mem_cons_self d0 rest0)
          exact hd0ne (headerOfD_inj c.sector hz d0.sector hd0mem
            (Option.some.injEq .. ▸ heq)).symm
      have h3 := ih (rest.dropWhile (fun e => e.sector = c.sector))
        (evs ++ [Ev.hdr (headerOfD c.sector)] ++ blockOf c ++
          (rest.takeWhile (fun e => e.sector = c.sector)).flatMap blockOf)
        (some (headerOfD c.sector)) hdroplen hdropsec hdrophead
      rw [h1, h2, h3, chunkSectors_cons]
      refine Prod.ext ?_ ?_
      · simp [List.flatMap_cons, List.append_assoc]
      · show curAfter (some (headerOfD c.sector))
            (rest.dropWhile (fun e => e.sector = c.sector)) =
          curAfter cur (c :: rest)
        cases hdw : rest.dropWhile (fun e => e.sector = c.sector) with
        | nil =>
          have hrest : rest = rest.takeWhile (fun e => e.sector = c.sector) := by
            conv_lhs => rw [← List.takeWhile_append_dropWhile
              (fun e => e.sector = c.sector) rest]
            rw [hdw, List.append_nil]
          rw [show curAfter (some (headerOfD c.sector)) ([] : List Cluster) =
            some (headerOfD c.sector) from rfl]
          rw [curAfter_const c.sector (c :: rest) (by simp) ?_ cur]
          intro d hd
          rcases List.mem_cons.mp hd with h | h
          · rw [h]
          · exact hruns d (hrest ▸ h)
        | cons d0 rest0 =>
          have hsplit2 : c :: rest =
              (c :: rest.takeWhile (fun e => e.sector = c.sector))
                ++ (d0 :: rest0) := by
            rw [List.cons_append]
            congr 1
            rw [← hdw]
            exact (List.takeWhile_append_dropWhile
              (fun e => e.sector = c.sector) rest).symm
          rw [hsplit2, curAfter_append_right _ _ cur
            (some (headerOfD c.sector)) (by simp)]

theorem clustersOfEvents_append : ∀ (l1 l2 : List Ev),
    clustersOfEvents (l1 ++ l2) =
      clustersOfEvents l1 ++ clustersOfEvents l2 := by
  intro l1 l2
  induction l1 with
  | nil => rfl
  | cons e rest ih =>
    cases e with
    | hdr h => simpa [clustersOfEvents] using ih
    | cline c => simpa [clustersOfEvents] using ih
    | rline r => simpa [clustersOfEvents] using ih
    | blank => simpa [clustersOfEvents] using ih

theorem clustersOfEvents_map_rline (rs : List Coordinate) :
    clustersOfEvents (rs.map Ev.rline) = [] := by
  induction rs with
  | nil => rfl
  | cons r rest ih => simpa [clustersOfEvents] using ih

theorem clustersOfEvents_blockOf (c : Cluster) :
    clustersOfEvents (blockOf c) =
      if c.resources.isSome then [c] else [] := by
  unfold blockOf
  cases c.resources with
  | none => rfl
  | some rs =>
    simp only [Option.isSome_some, if_pos]
    show c :: clustersOfEvents ((sortResources rs).map Ev.rline ++ [Ev.blank]) = [c]
    rw [clustersOfEvents_append, clustersOfEvents_map_rline]
    rfl

theorem clustersOfEvents_run (run : List Cluster) :
    clustersOfEvents (run.flatMap blockOf) =
      run.filter (fun c => c.resources.isSome) := by
  induction run with
  | nil => rfl
  | cons c rest ih =>
    rw [List.flatMap_cons, clustersOfEvents_append, ih, List.filter_cons,
      clustersOfEvents_blockOf]
    by_cases h : c.resources.isSome
    · rw [if_pos h, if_pos (by simpa using h)]; rfl
    · rw [if_neg h, if_neg (by simpa using h)]; rfl

theorem chunk_join : ∀ (n : ℕ) (l : List Cluster), l.length ≤ n →
    (chunkSectors l).flatMap Prod.snd = l := by
  intro n
  induction n with
  | zero =>
    intro l hlen
    have : l = [] := List.eq_nil_of_length_eq_zero (Nat.le_zero.mp hlen)
    subst this
    rw [chunkSectors]
    rfl
  | succ n ih =>
    intro l hlen
    cases l with
    | nil => rw [chunkSectors]; rfl
    | cons c rest =>
      rw [chunkSectors_cons, List.flatMap_cons]
      have hdroplen :
          (rest.dropWhile (fun e => e.sector = c.sector)).length ≤ n :=
        le_trans (List.dropWhile_sublist _).length_le
          (by simp only [List.length_cons] at hlen; omega)
      rw [ih _ hdroplen]
      show c :: (rest.takeWhile (fun e => e.sector = c.sector) ++
        rest.dropWhile (fun e => e.sector = c.sector)) = c :: rest
      rw [List.takeWhile_append_dropWhile]

theorem clustersOfEvents_chunks : ∀ (n : ℕ) (l : List Cluster), l.length ≤ n →
    clustersOfEvents ((chunkSectors l).flatMap
      (fun zr => Ev.hdr (headerOfD zr.1) :: zr.2.flatMap blockOf)) =
    l.filter (fun c => c.resources.isSome) := by
  intro n
  induction n with
  | zero =>
    intro l hlen
    have : l = [] := List.eq_nil_of_length_eq_zero (Nat.le_zero.mp hlen)
    subst this
    rw [chunkSectors]
    rfl
  | succ n ih =>
    intro l hlen
    cases l with
    | nil => rw [chunkSectors]; rfl
    | cons c rest =>
      rw [chunkSectors_cons, List.flatMap_cons]
      have hdroplen :
          (rest.dropWhile (fun e => e.sector = c.sector)).length ≤ n :=
        le_trans (List.dropWhile_sublist _).length_le
          (by simp only [List.length_cons] at hlen; omega)
      show clustersOfEvents
          ((c :: rest.takeWhile (fun e => e.sector = c.sector)).flatMap blockOf
            ++ (chunkSectors (rest.dropWhile (fun e => e.sector = c.sector))).flatMap
              (fun zr => Ev.hdr (headerOfD zr.1) :: zr.2.flatMap blockOf)) =
        (c :: rest).filter (fun c => c.resources.isSome)
      rw [clustersOfEvents_append, clustersOfEvents_run, ih _ hdroplen]
      rw [show c :: rest =
        (c :: rest.takeWhile (fun e => e.sector = c.sector)) ++
          rest.dropWhile (fun e => e.sector = c.sector) from by
        rw [List.cons_append, List.takeWhile_append_dropWhile]]
      rw [List.filter_append]

theorem chunk_zones_chain : ∀ (n : ℕ) (l : List Cluster), l.length ≤ n →
    (∀ c ∈ l, c.sector ∈ sectorAbbrs) →
    l.Pairwise (fun a b => sector_index b.sector ≤ sector_index a.sector) →
    ((chunkSectors l).map Prod.fst).Chain'
      (fun z1 z2 => sector_index z2 < sector_index z1) := by
  intro n
  induction n with
  | zero =>
    intro l hlen _ _
    have : l = [] := List.eq_nil_of_length_eq_zero (Nat.le_zero.mp hlen)
    subst this
    rw [chunkSectors]
    exact List.chain'_nil
  | succ n ih =>
    intro l hlen hsec hsort
    cases l with
    | nil => rw [chunkSectors]; exact List.chain'_nil
    | cons c rest =>
      rw [chunkSectors_cons, List.map_cons]
      rw [List.chain'_cons']
      have hdroplen :
          (rest.dropWhile (fun e => e.sector = c.sector)).length ≤ n :=
        le_trans (List.dropWhile_sublist _).length_le
          (by simp only [List.length_cons] at hlen; omega)
      have hdropsub : ∀ d ∈ rest.dropWhile (fun e => e.sector = c.sector),
          d ∈ rest := fun d hd => (List.dropWhile_sublist _).subset hd
      have hdropsec : ∀ d ∈ rest.dropWhile (fun e => e.sector = c.sector),
          d.sector ∈ sectorAbbrs := fun d hd =>
        hsec d (List.mem_cons_of_mem c (hdropsub d hd))
      have hdropsort :
          (rest.dropWhile (fun e => e.sector = c.sector)).Pairwise
            (fun a b => sector_index b.sector ≤ sector_index a.sector) :=
        ((List.pairwise_cons.mp hsort).2).sublist (List.dropWhile_sublist _)
      refine ⟨?_, ih _ hdroplen hdropsec hdropsort⟩
      intro z' hz'
      cases hdw : rest.dropWhile (fun e => e.sector = c.sector) with
      | nil =>
        rw [hdw, chunkSectors] at hz'
        cases hz'
      | cons d0 rest0 =>
        rw [hdw, chunkSectors_cons, List.map_cons, List.head?_cons,
          Option.mem_some_iff] at hz'
        subst hz'
        have hd0mem : d0 ∈ rest := hdropsub d0 (hdw ▸ List.mem_cons_self d0 rest0)
        have hle : sector_index d0.sector ≤ sector_index c.sector :=
          (List.pairwise_cons.mp hsort).1 d0 hd0mem
        have hne : d0.sector ≠ c.sector := by
          simpa using dropWhile_head_false _ rest d0 rest0 hdw
        refine lt_of_le_of_ne hle ?_
        intro heq
        exact hne (sector_index_inj d0.sector
          (hsec d0 (List.mem_cons_of_mem c hd0mem)) c.sector
          (hsec c (List.mem_cons_self c rest)) heq)

/-- C8: in the emitted output, clusters appear in non-increasing order of
their zone's `SECTORS`-table index (table-later zones first); within each
cluster the resources appear in non-decreasing order of their leading ore
token's index in `ORES`; and the output is exactly one zone header
followed by the cluster blocks, per maximal run of equal-zone clusters in
the sorted order, each zone's header being written exactly once overall
(provided every cluster's zone occurs in the `SECTORS` table). -/
theorem c8_output_ordering (cs : List Cluster)
    (hsec : ∀ c ∈ cs, c.sector ∈ sectorAbbrs) :
    emitMain cs = (chunkSectors (sortClusters cs)).flatMap
        (fun zr => Ev.hdr (headerOfD zr.1) :: zr.2.flatMap blockOf) ∧
    (clustersOfEvents (emitMain cs)).Chain'
        (fun c1 c2 => sector_index c2.sector ≤ sector_index c1.sector) ∧
    (∀ rs : List Coordinate, (sortResources rs).Chain'
        (fun r1 r2 => oreKey r1 ≤ oreKey r2)) ∧
    ((chunkSectors (sortClusters cs)).map Prod.fst).Pairwise
        (fun z1 z2 => z1 ≠ z2) := by
  have hsecS : ∀ c ∈ sortClusters cs, c.sector ∈ sectorAbbrs := fun c hc =>
    hsec c ((List.mergeSort_perm cs _).subset hc)
  have hmain : emitMain cs = (chunkSectors (sortClusters cs)).flatMap
      (fun zr => Ev.hdr (headerOfD zr.1) :: zr.2.flatMap blockOf) := by
    unfold emitMain emitClusters
    rw [emit_chunks (sortClusters cs).length (sortClusters cs) [] none
      le_rfl hsecS (fun c0 _ => by simp)]
    simp
  have htransS : ∀ a b c : Cluster,
      decide (sector_index b.sector ≤ sector_index a.sector) = true →
      decide (sector_index c.sector ≤ sector_index b.sector) = true →
      decide (sector_index c.sector ≤ sector_index a.sector) = true := by
    intro a b c h1 h2
    simp only [decide_eq_true_eq] at h1 h2 ⊢
    omega
  have htotalS : ∀ a b : Cluster,
      (decide (sector_index b.sector ≤ sector_index a.sector) ||
        decide (sector_index a.sector ≤ sector_index b.sector)) = true := by
    intro a b
    simp only [Bool.or_eq_true, decide_eq_true_eq]
    omega
  have hsortPairB := @List.sorted_mergeSort Cluster
    (fun a b => decide (sector_index b.sector ≤ sector_index a.sector))
    htransS htotalS cs
  have hsortPair : (sortClusters cs).Pairwise
      (fun a b => sector_index b.sector ≤ sector_index a.sector) :=
    hsortPairB.imp (fun h => of_decide_eq_true h)
  refine ⟨hmain, ?_, ?_, ?_⟩
  · have hfilter : clustersOfEvents (emitMain cs) =
        (sortClusters cs).filter (fun c => c.resources.isSome) := by
      rw [hmain, clustersOfEvents_chunks (sortClusters cs).length _ le_rfl]
    rw [hfilter]
    exact (hsortPair.sublist (List.filter_sublist _)).chain'
  · intro rs
    have htransR : ∀ a b c : Coordinate,
        decide (oreKey a ≤ oreKey b) = true →
        decide (oreKey b ≤ oreKey c) = true →
        decide (oreKey a ≤ oreKey c) = true := by
      intro a b c h1 h2
      simp only [decide_eq_true_eq] at h1 h2 ⊢
      omega
    have htotalR : ∀ a b : Coordinate,
        (decide (oreKey a ≤ oreKey b) || decide (oreKey b ≤ oreKey a)) = true := by
      intro a b
      simp only [Bool.or_eq_true, decide_eq_true_eq]
      omega
    have hpairR := @List.sorted_mergeSort Coordinate
      (fun a b => decide (oreKey a ≤ oreKey b)) htransR htotalR rs
    exact (hpairR.imp (fun h => of_decide_eq_true h)).chain'
  · have hchain := chunk_zones_chain (sortClusters cs).length (sortClusters cs)
      le_rfl hsecS hsortPair
    have htransI : IsTrans Str (fun z1 z2 => sector_index z2 < sector_index z1) :=
      ⟨fun a b c h1 h2 => lt_trans h2 h1⟩
    have hpairZ := (@List.chain'_iff_pairwise Str
      (fun z1 z2 => sector_index z2 < sector_index z1) htransI _).mp hchain
    refine hpairZ.imp ?_
    intro z1 z2 h heq
    rw [heq] at h
    exact lt_irrefl _ h

theorem c8_output_ordering_witness :
    emitMain [c10empty] = (chunkSectors (sortClusters [c10empty])).flatMap
      (fun zr => Ev.hdr (headerOfD zr.1) :: zr.2.flatMap blockOf) :=
  (c8_output_ordering [c10empty] (by decide)).1

theorem parseOres_nil (str : Str)
    (h : str.dropWhile (fun c => !isAZ c) = []) : parseOres str = [] := by
  rw [parseOres]
  split
  · rfl
  · next c t' hd =>
    rw [h] at hd
    cases hd

theorem parseOres_stepA (str : Str) (c : Char) (t' : Str)
    (h : str.dropWhile (fun e => !isAZ e) = c :: t')
    (hw2 : ((c :: t').dropWhile isAZ).takeWhile pyIsSpace = []) :
    parseOres str = ((c :: t').takeWhile isAZ, none) ::
      parseOres ((c :: t').dropWhile isAZ) := by
  rw [parseOres]
  split
  · next hd =>
    rw [h] at hd
    cases hd
  · next c0 t0 hd =>
    rw [h] at hd
    injection hd with h1 h2
    subst h1
    subst h2
    rw [if_pos (by rw [hw2]; rfl)]

theorem parseOres_stepB (str : Str) (c : Char) (t' : Str)
    (h : str.dropWhile (fun e => !isAZ e) = c :: t')
    (hw2 : ((c :: t').dropWhile isAZ).takeWhile pyIsSpace ≠ [])
    (hv : ((c :: t').dropWhile isAZ).dropWhile pyIsSpace = [])
    (hlen : 2 ≤ (((c :: t').dropWhile isAZ).takeWhile pyIsSpace).length) :
    parseOres str = [((c :: t').takeWhile isAZ,
      some ((((c :: t').dropWhile isAZ).takeWhile pyIsSpace).drop
        ((((c :: t').dropWhile isAZ).takeWhile pyIsSpace).length - 1)))] := by
  rw [parseOres]
  split
  · next hd =>
    rw [h] at hd
    cases hd
  · next c0 t0 hd =>
    rw [h] at hd
    injection hd with h1 h2
    subst h1
    subst h2
    rw [if_neg (by simpa [List.isEmpty_iff] using hw2)]
    split
    · next hv0 =>
      rw [if_pos hlen]
    · next d0 v0 hv0 =>
      rw [hv] at hv0
      cases hv0

theorem parseOres_stepB1 (str : Str) (c : Char) (t' : Str)
    (h : str.dropWhile (fun e => !isAZ e) = c :: t')
    (hw2 : ((c :: t').dropWhile isAZ).takeWhile pyIsSpace ≠ [])
    (hv : ((c :: t').dropWhile isAZ).dropWhile pyIsSpace = [])
    (hlen : ¬ 2 ≤ (((c :: t').dropWhile isAZ).takeWhile pyIsSpace).length) :
    parseOres str = [((c :: t').takeWhile isAZ, none)] := by
  rw [parseOres]
  split
  · next hd =>
    rw [h] at hd
    cases hd
  · next c0 t0 hd =>
    rw [h] at hd
    injection hd with h1 h2
    subst h1
    subst h2
    rw [if_neg (by simpa [List.isEmpty_iff] using hw2)]
    split
    · next hv0 =>
      rw [if_neg hlen]
    · next d0 v0 hv0 =>
      rw [hv] at hv0
      cases hv0

theorem parseOres_stepC (str : Str) (c : Char) (t' v' : Str)
    (h : str.dropWhile (fun e => !isAZ e) = c :: t')
    (hw2 : ((c :: t').dropWhile isAZ).takeWhile pyIsSpace ≠ [])
    (hv : ((c :: t').dropWhile isAZ).dropWhile pyIsSpace = ',' :: v')
    (hlen : 2 ≤ (((c :: t').dropWhile isAZ).takeWhile pyIsSpace).length) :
    parseOres str = ((c :: t').takeWhile isAZ,
      some ((((c :: t').dropWhile isAZ).takeWhile pyIsSpace).drop
        ((((c :: t').dropWhile isAZ).takeWhile pyIsSpace).length - 1))) ::
      parseOres v' := by
  rw [parseOres]
  split
  · next hd =>
    rw [h] at hd
    cases hd
  · next c0 t0 hd =>
    rw [h] at hd
    injection hd with h1 h2
    subst h1
    subst h2
    rw [if_neg (by simpa [List.isEmpty_iff] using hw2)]
    split
    · next hv0 =>
      rw [hv] at hv0
      cases hv0
    · next d0 v0 hv0 =>
      rw [hv] at hv0
      injection hv0 with h3 h4
      subst h3
      subst h4
      rw [if_pos rfl, if_pos hlen]

theorem parseOres_stepC1 (str : Str) (c : Char) (t' v' : Str)
    (h : str.dropWhile (fun e => !isAZ e) = c :: t')
    (hw2 : ((c :: t').dropWhile isAZ).takeWhile pyIsSpace ≠ [])
    (hv : ((c :: t').dropWhile isAZ).dropWhile pyIsSpace = ',' :: v')
    (hlen : ¬ 2 ≤ (((c :: t').dropWhile isAZ).takeWhile pyIsSpace).length) :
    parseOres str = ((c :: t').takeWhile isAZ, none) ::
      parseOres ((c :: t').dropWhile isAZ) := by
  rw [parseOres]
  split
  · next hd =>
    rw [h] at hd
    cases hd
  · next c0 t0 hd =>
    rw [h] at hd
    injection hd with h1 h2
    subst h1
    subst h2
    rw [if_neg (by simpa [List.isEmpty_iff] using hw2)]
    split
    · next hv0 =>
      rw [hv] at hv0
      cases hv0
    · next d0 v0 hv0 =>
      rw [hv] at hv0
      injection hv0 with h3 h4
      subst h3
      subst h4
      rw [if_pos rfl, if_neg hlen]

theorem parseOres_stepD (str : Str) (c : Char) (t' : Str) (d : Char) (v' : Str)
    (h : str.dropWhile (fun e => !isAZ e) = c :: t')
    (hw2 : ((c :: t').dropWhile isAZ).takeWhile pyIsSpace ≠ [])
    (hv : ((c :: t').dropWhile isAZ).dropWhile pyIsSpace = d :: v')
    (hdne : d ≠ ',') :
    parseOres str = ((c :: t').takeWhile isAZ,
      some ((d :: v').takeWhile (fun e => !(e = ',')))) ::
      parseOres (((d :: v').dropWhile (fun e => !(e = ','))).drop 1) := by
  rw [parseOres]
  split
  · next hd0 =>
    rw [h] at hd0
    cases hd0
  · next c0 t0 hd0 =>
    rw [h] at hd0
    injection hd0 with h1 h2
    subst h1
    subst h2
    rw [if_neg (by simpa [List.isEmpty_iff] using hw2)]
    split
    · next hv0 =>
      rw [hv] at hv0
      cases hv0
    · next d0 v0 hv0 =>
      rw [hv] at hv0
      injection hv0 with h3 h4
      subst h3
      subst h4
      rw [if_neg hdne]

theorem normalize_c6_eval :
    normalize_name ["FE".data, "U".data] ["ZA".data]
      "ZA fe large".data "ZA".data = some "ZA FE LARGE".data := by
  have h1 : sectorOresMatch "ZA fe large".data =
      some ("ZA".data, "fe large".data) := by decide
  rw [normalize_name, h1]
  dsimp only
  rw [if_pos (Or.inr (by decide))]
  rw [if_neg (show ¬ (upStr ['Z','A'] ∈ [['F','E'],['U']]) from by decide)]
  rw [show upStr ['f','e',' ','l','a','r','g','e'] =
    ['F','E',' ','L','A','R','G','E'] from by decide]
  rw [parseOres_stepD ['F','E',' ','L','A','R','G','E'] 'F'
    ['E',' ','L','A','R','G','E'] 'L' ['A','R','G','E']
    (by decide) (by decide) (by decide) (by decide)]
  rw [parseOres_nil _ (by decide)]
  rw [show stripSizes [((('F' :: ['E',' ','L','A','R','G','E']).takeWhile isAZ),
      some (('L' :: ['A','R','G','E']).takeWhile (fun e => !(e = ','))))] =
    [(['F','E'], some ['L','A','R','G','E'])] from by decide]
  rw [show sortEntries [['F','E'],['U']] [(['F','E'], some ['L','A','R','G','E'])] =
    [(['F','E'], some ['L','A','R','G','E'])] from
    List.mergeSort_singleton (['F','E'], some ['L','A','R','G','E'])]
  decide

/-- C6: normalizing the label `"ZA fe large"` (ore vocabulary listing FE
before U, zone table containing ZA, zone argument `"ZA"`) returns
`"ZA FE LARGE"`: the zone text is the `sector` argument, the ore code is
upper-cased — and, contrary to the claim's `"ZA FE large"`, the size
phrase is upper-cased too, because `normalize_name` upper-cases the whole
ores capture before parsing it. -/
theorem c6_scenario_normalization :
    normalize_name ["FE".data, "U".data] ["ZA".data]
      "ZA fe large".data "ZA".data = some "ZA FE LARGE".data :=
  normalize_c6_eval

theorem c6_size_upcased_counterexample :
    normalize_name ["FE".data, "U".data] ["ZA".data]
      "ZA fe large".data "ZA".data = some "ZA FE LARGE".data ∧
    some "ZA FE LARGE".data ≠ some "ZA FE large".data :=
  ⟨normalize_c6_eval, by decide⟩

theorem toNat_ofNat_valid (n : ℕ) (h : n < 55296) :
    (Char.ofNat n).toNat = n := by
  have hv : n.isValidChar := Or.inl h
  rw [Char.ofNat, dif_pos hv]
  rfl

theorem charLe_toNat {a b : Char} : a ≤ b ↔ a.toNat ≤ b.toNat := by
  rw [Char.le_def]
  rfl

theorem upChar_idem (c : Char) : upChar (upChar c) = upChar c := by
  unfold upChar
  by_cases h : 'a' ≤ c ∧ c ≤ 'z'
  · rw [if_pos h]
    have h1 : 97 ≤ c.toNat := charLe_toNat.mp h.1
    have h2 : c.toNat ≤ 122 := charLe_toNat.mp h.2
    have hv : (Char.ofNat (c.toNat - 32)).toNat = c.toNat - 32 :=
      toNat_ofNat_valid _ (by omega)
    rw [if_neg ?_]
    intro hcon
    have h3 : 97 ≤ (Char.ofNat (c.toNat - 32)).toNat := charLe_toNat.mp hcon.1
    rw [hv] at h3
    omega
  · rw [if_neg h, if_neg h]

theorem isAZ_toNat (c : Char) (h : isAZ c = true) :
    65 ≤ c.toNat ∧ c.toNat ≤ 90 := by
  have h' : 'A' ≤ c ∧ c ≤ 'Z' := by simpa [isAZ] using h
  exact ⟨charLe_toNat.mp h'.1, charLe_toNat.mp h'.2⟩

theorem pyIsSpace_toNat (c : Char) (h : pyIsSpace c = true) : c.toNat ≤ 32 := by
  have h' : c = ' ' ∨ c = '\t' ∨ c = '\n' ∨ c = '\x0b' ∨ c = '\x0c' ∨
      c = '\r' := by simpa [pyIsSpace] using h
  rcases h' with h'|h'|h'|h'|h'|h' <;> subst h' <;> decide

theorem isAZ_not_space (c : Char) (h : isAZ c = true) : pyIsSpace c = false := by
  cases hs : pyIsSpace c
  · rfl
  · exact absurd (le_trans (isAZ_toNat c h).1 (pyIsSpace_toNat c hs))
      (by omega)

theorem isAZ_ne_comma (c : Char) (h : isAZ c = true) : (c = ',') = False := by
  simp only [eq_iff_iff, iff_false]
  intro heq
  subst heq
  exact absurd h (by decide)

theorem space_ne_comma (c : Char) (h : pyIsSpace c = true) : (c = ',') = False := by
  simp only [eq_iff_iff, iff_false]
  intro heq
  subst heq
  exact absurd h (by decide)

theorem upChar_of_isAZ (c : Char) (h : isAZ c = true) : upChar c = c := by
  unfold upChar
  rw [if_neg ?_]
  intro hcon
  have h1 : 97 ≤ c.toNat := charLe_toNat.mp hcon.1
  exact absurd (isAZ_toNat c h).2 (by omega)

theorem all_implies {p q : Char → Bool} (h : ∀ c, p c = true → q c = true) :
    ∀ l : Str, l.all p = true → l.all q = true := by
  intro l hl
  rw [List.all_eq_true] at hl ⊢
  exact fun c hc => h c (hl c hc)

theorem all_of_sublist {p : Char → Bool} {l l' : Str} (hs : List.Sublist l' l)
    (h : l.all p = true) : l'.all p = true := by
  rw [List.all_eq_true] at h ⊢
  exact fun c hc => h c (hs.subset hc)

theorem pyStrip_getLast_not_space (s : Str) :
    ∀ c, (pyStrip s).getLast? = some c → pyIsSpace c = false := by
  intro c hc
  unfold pyStrip at hc
  rw [List.getLast?_reverse] at hc
  cases hh : ((s.dropWhile pyIsSpace).reverse.dropWhile pyIsSpace) with
  | nil => rw [hh] at hc; cases hc
  | cons a t =>
    rw [hh] at hc
    have := List.head_dropWhile_not pyIsSpace (s.dropWhile pyIsSpace).reverse
    rw [hh] at this
    simp only [List.head?_cons, Option.some.injEq] at hc
    subst hc
    simpa using this

theorem getLast?_of_suffix {l l' : Str} (h : l' <:+ l) (hne : l' ≠ []) :
    l.getLast? = l'.getLast? := by
  rcases h with ⟨w, hw⟩
  subst hw
  rw [List.getLast?_append]
  cases hl : l'.getLast? with
  | none => exact absurd (List.getLast?_eq_none_iff.mp hl) hne
  | some a => rfl

theorem pyStrip_head_not_space (s : Str) :
    ∀ c, (pyStrip s).head? = some c → pyIsSpace c = false := by
  intro c hc
  unfold pyStrip at hc
  rw [List.head?_reverse] at hc
  have hsuf : (s.dropWhile pyIsSpace).reverse.dropWhile pyIsSpace <:+
      (s.dropWhile pyIsSpace).reverse := List.dropWhile_suffix _
  have hne : (s.dropWhile pyIsSpace).reverse.dropWhile pyIsSpace ≠ [] := by
    intro h0
    rw [h0] at hc
    cases hc
  rw [← getLast?_of_suffix hsuf hne, List.getLast?_reverse] at hc
  cases hh : s.dropWhile pyIsSpace with
  | nil => rw [hh] at hc; cases hc
  | cons a t =>
    rw [hh] at hc
    have := List.head_dropWhile_not pyIsSpace s
    rw [hh] at this
    simp only [List.head?_cons, Option.some.injEq] at hc
    subst hc
    simpa using this

theorem pyStrip_eq_self_of (s : Str)
    (h1 : ∀ c, s.head? = some c → pyIsSpace c = false)
    (h2 : ∀ c, s.getLast? = some c → pyIsSpace c = false) :
    pyStrip s = s := by
  unfold pyStrip
  cases s with
  | nil => rfl
  | cons a t =>
    have ha : pyIsSpace a = false := h1 a rfl
    rw [List.dropWhile_cons, if_neg (by simp [ha])]
    cases hr : (a :: t).reverse with
    | nil => exact absurd (List.reverse_eq_nil_iff.mp hr) (by simp)
    | cons b u =>
      have hb : pyIsSpace b = false := by
        apply h2 b
        rw [← List.head?_reverse, hr]
        rfl
      have hdw : List.dropWhile pyIsSpace (b :: u) = b :: u := by
        rw [List.dropWhile_cons, if_neg (by simp [hb])]
      rw [hdw, ← hr, List.reverse_reverse]

theorem pyStrip_idem (s : Str) : pyStrip (pyStrip s) = pyStrip s :=
  pyStrip_eq_self_of _ (pyStrip_head_not_space s) (pyStrip_getLast_not_space s)

theorem pyStrip_append_ws (sz : Str) (c : Char) (hc : pyIsSpace c = true)
    (hh : ∀ d, sz.head? = some d → pyIsSpace d = false) :
    pyStrip (sz ++ [c]) = pyStrip sz := by
  unfold pyStrip
  cases sz with
  | nil => simp [List.dropWhile_cons, hc]
  | cons a t =>
    have ha : pyIsSpace a = false := hh a rfl
    rw [List.cons_append, List.dropWhile_cons, if_neg (by simp [ha]),
      List.dropWhile_cons, if_neg (by simp [ha])]
    rw [show (a :: (t ++ [c])).reverse = c :: (a :: t).reverse by simp]
    rw [List.dropWhile_cons, if_pos (by simp [hc])]

theorem upStr_eq_self (s : Str)
    (h : s.all (fun c => upChar c = c) = true) : upStr s = s := by
  induction s with
  | nil => rfl
  | cons a t ih =>
    simp only [List.all_cons, Bool.and_eq_true, decide_eq_true_eq] at h
    simp only [upStr, List.map_cons, h.1]
    have := ih (by simpa [List.all_eq_true] using h.2)
    simpa [upStr] using this

theorem upStr_all_upfix (s : Str) :
    (upStr s).all (fun c => upChar c = c) = true := by
  rw [List.all_eq_true]
  intro c hc
  rcases List.mem_map.mp hc with ⟨d, _, hd⟩
  subst hd
  simpa using upChar_idem d

theorem hasUDTail_cons_false {c : Char} {rest : Str}
    (h : hasUDTail (c :: rest) = false) :
    isUDSuffix (c :: rest) = false ∧ hasUDTail rest = false := by
  rw [hasUDTail] at h
  exact ⟨(Bool.or_eq_false_iff.mp h).1, (Bool.or_eq_false_iff.mp h).2⟩

theorem hasUDTail_append_false : ∀ (xs t : Str),
    hasUDTail (xs ++ t) = false → hasUDTail t = false := by
  intro xs
  induction xs with
  | nil => intro t h; exact h
  | cons x xs' ih =>
    intro t h
    rw [List.cons_append] at h
    exact ih t (hasUDTail_cons_false h).2

theorem lazyCore_eq_self : ∀ (c : Char) (rest : Str),
    hasUDTail rest = false → lazyCore (c :: rest) = c :: rest := by
  intro c rest
  induction rest generalizing c with
  | nil => intro _; rfl
  | cons d rest' ih =>
    intro h
    obtain ⟨h1, h2⟩ := hasUDTail_cons_false h
    rw [lazyCore, if_neg (by simp [h1]), ih d h2]

theorem space_not_comma (c : Char) (h : pyIsSpace c = true) :
    (!(decide (c = ','))) = true := by
  simp only [Bool.not_eq_true', decide_eq_false_iff_not]
  intro heq
  subst heq
  exact absurd h (by decide)

theorem sectorAbbr_facts : ∀ z ∈ sectorAbbrs,
    z ≠ [] ∧ z.all isAZ = true ∧ ¬ z ∈ ORES := by decide

theorem parseOres_facts (P : Char → Bool) :
    ∀ (n : ℕ) (str : Str), str.length ≤ n →
      ∀ e ∈ parseOres str,
        e.1 ≠ [] ∧ e.1.all isAZ = true ∧
        (str.all P = true → e.1.all P = true) ∧
        ∀ sz, e.2 = some sz →
          sz.all (fun ch => !(ch = ',')) = true ∧
          (str.all P = true → sz.all P = true) := by
  intro n
  induction n with
  | zero =>
    intro str hlen e he
    have : str = [] := List.eq_nil_of_length_eq_zero (Nat.le_zero.mp hlen)
    subst this
    rw [parseOres_nil [] rfl] at he
    cases he
  | succ n ih =>
    intro str hlen e he
    cases hd : str.dropWhile (fun c => !isAZ c) with
    | nil =>
      rw [parseOres_nil str hd] at he
      cases he
    | cons c t' =>
      have hcaz : isAZ c = true := by
        have h0 := List.head_dropWhile_not (fun c => !isAZ c) str
        rw [hd] at h0
        simpa using h0
      have hsub1 : List.Sublist (c :: t') str := hd ▸ List.dropWhile_sublist _
      have hlen1 : (c :: t').length ≤ str.length := hsub1.length_le
      have hu : (c :: t').dropWhile isAZ = t'.dropWhile isAZ := by
        rw [List.dropWhile_cons, if_pos hcaz]
      have hsubu : List.Sublist ((c :: t').dropWhile isAZ) str :=
        List.Sublist.trans (List.dropWhile_sublist _) hsub1
      have hulen : ((c :: t').dropWhile isAZ).length ≤ n := by
        have h1 : (t'.dropWhile isAZ).length ≤ t'.length :=
          (List.dropWhile_sublist _).length_le
        rw [hu]
        simp only [List.length_cons] at hlen1
        omega
      have hore_ne : (c :: t').takeWhile isAZ ≠ [] := by
        rw [List.takeWhile_cons, if_pos hcaz]
        simp
      have hore_az : ((c :: t').takeWhile isAZ).all isAZ = true :=
        List.all_takeWhile
      have hore_P : str.all P = true →
          ((c :: t').takeWhile isAZ).all P = true := fun hP =>
        all_of_sublist (List.Sublist.trans (List.takeWhile_sublist _) hsub1) hP
      have htailu : ∀ e', e' ∈ parseOres ((c :: t').dropWhile isAZ) →
          e'.1 ≠ [] ∧ e'.1.all isAZ = true ∧
          (str.all P = true → e'.1.all P = true) ∧
          ∀ sz, e'.2 = some sz →
            sz.all (fun ch => !(ch = ',')) = true ∧
            (str.all P = true → sz.all P = true) := by
        intro e' he'
        obtain ⟨f1, f2, f3, f4⟩ := ih _ hulen e' he'
        exact ⟨f1, f2, fun hP => f3 (all_of_sublist hsubu hP),
          fun sz hsz => ⟨(f4 sz hsz).1,
            fun hP => (f4 sz hsz).2 (all_of_sublist hsubu hP)⟩⟩
      cases hw2 : ((c :: t').dropWhile isAZ).takeWhile pyIsSpace with
      | nil =>
        rw [parseOres_stepA str c t' hd hw2] at he
        rcases List.mem_cons.mp he with he | he
        · subst he
          exact ⟨hore_ne, hore_az, hore_P, fun sz hsz => by cases hsz⟩
        · exact htailu e he
      | cons wc wt =>
        have hw2ne : ((c :: t').dropWhile isAZ).takeWhile pyIsSpace ≠ [] := by
          rw [hw2]
          simp
        have hw2ws : (((c :: t').dropWhile isAZ).takeWhile pyIsSpace).all
            pyIsSpace = true := List.all_takeWhile
        have hw2sub : List.Sublist
            (((c :: t').dropWhile isAZ).takeWhile pyIsSpace) str :=
          List.Sublist.trans (List.takeWhile_sublist _) hsubu
        have hsz0 : ∀ sz, ((((c :: t').dropWhile isAZ).takeWhile
              pyIsSpace).drop
              ((((c :: t').dropWhile isAZ).takeWhile pyIsSpace).length - 1))
              = sz →
            sz.all (fun ch => !(ch = ',')) = true ∧
            (str.all P = true → sz.all P = true) := by
          intro sz hsz
          subst hsz
          constructor
          · exact all_implies space_not_comma _
              (all_of_sublist (List.drop_sublist _ _) hw2ws)
          · intro hP
            exact all_of_sublist
              (List.Sublist.trans (List.drop_sublist _ _) hw2sub) hP
        cases hv : ((c :: t').dropWhile isAZ).dropWhile pyIsSpace with
        | nil =>
          by_cases hlen2 :
              2 ≤ (((c :: t').dropWhile isAZ).takeWhile pyIsSpace).length
          · rw [parseOres_stepB str c t' hd hw2ne hv hlen2] at he
            simp only [List.mem_singleton] at he
            subst he
            refine ⟨hore_ne, hore_az, hore_P, ?_⟩
            intro sz hsz
            injection hsz with hsz
            exact hsz0 sz hsz
          · rw [parseOres_stepB1 str c t' hd hw2ne hv hlen2] at he
            simp only [List.mem_singleton] at he
            subst he
            exact ⟨hore_ne, hore_az, hore_P, fun sz hsz => by cases hsz⟩
        | cons d v' =>
          have hsubv : List.Sublist (d :: v') str :=
            hv ▸ List.Sublist.trans (List.dropWhile_sublist _) hsubu
          have hvlen : v'.length ≤ n := by
            have h2 : (((c :: t').dropWhile isAZ).dropWhile
                pyIsSpace).length ≤ ((c :: t').dropWhile isAZ).length :=
              (List.dropWhile_sublist _).length_le
            rw [hv] at h2
            simp only [List.length_cons] at h2
            omega
          by_cases hdc : d = ','
          · subst hdc
            by_cases hlen2 :
                2 ≤ (((c :: t').dropWhile isAZ).takeWhile pyIsSpace).length
            · rw [parseOres_stepC str c t' v' hd hw2ne hv hlen2] at he
              rcases List.mem_cons.mp he with he | he
              · subst he
                refine ⟨hore_ne, hore_az, hore_P, ?_⟩
                intro sz hsz
                injection hsz with hsz
                exact hsz0 sz hsz
              · obtain ⟨f1, f2, f3, f4⟩ := ih v' hvlen e he
                have hsubv' : List.Sublist v' str :=
                  List.Sublist.trans (List.sublist_cons_self _ _) hsubv
                exact ⟨f1, f2, fun hP => f3 (all_of_sublist hsubv' hP),
                  fun sz hsz => ⟨(f4 sz hsz).1,
                    fun hP => (f4 sz hsz).2 (all_of_sublist hsubv' hP)⟩⟩
            · rw [parseOres_stepC1 str c t' v' hd hw2ne hv hlen2] at he
              rcases List.mem_cons.mp he with he | he
              · subst he
                exact ⟨hore_ne, hore_az, hore_P, fun sz hsz => by cases hsz⟩
              · exact htailu e he
          · rw [parseOres_stepD str c t' d v' hd hw2ne hv hdc] at he
            rcases List.mem_cons.mp he with he | he
            · subst he
              refine ⟨hore_ne, hore_az, hore_P, ?_⟩
              intro sz hsz
              injection hsz with hsz
              subst hsz
              constructor
              · exact List.all_takeWhile
              · intro hP
                exact all_of_sublist
                  (List.Sublist.trans (List.takeWhile_sublist _) hsubv) hP
            · have harg : List.Sublist
                  (((d :: v').dropWhile (fun e => !(e = ','))).drop 1)
                  (d :: v') :=
                List.Sublist.trans (List.drop_sublist _ _)
                  (List.dropWhile_sublist _)
              have harglen :
                  (((d :: v').dropWhile (fun e => !(e = ','))).drop 1).length
                    ≤ n := by
                have h3 : ((d :: v').dropWhile
                    (fun e => !(e = ','))).length ≤ (d :: v').length :=
                  (List.dropWhile_sublist _).length_le
                simp only [List.length_drop, List.length_cons] at h3 ⊢
                omega
              obtain ⟨f1, f2, f3, f4⟩ := ih _ harglen e he
              have hsubarg : List.Sublist
                  (((d :: v').dropWhile (fun e => !(e = ','))).drop 1)
                  str := List.Sublist.trans harg hsubv
              exact ⟨f1, f2, fun hP => f3 (all_of_sublist hsubarg hP),
                fun sz hsz => ⟨(f4 sz hsz).1,
                  fun hP => (f4 sz hsz).2 (all_of_sublist hsubarg hP)⟩⟩

theorem takeWhile_all_eq {p : Char → Bool} : ∀ {l : Str},
    l.all p = true → l.takeWhile p = l := by
  intro l h
  induction l with
  | nil => rfl
  | cons a t ih =>
    simp only [List.all_cons, Bool.and_eq_true] at h
    rw [List.takeWhile_cons, if_pos h.1, ih h.2]

theorem dropWhile_all_nil {p : Char → Bool} : ∀ {l : Str},
    l.all p = true → l.dropWhile p = [] := by
  intro l h
  induction l with
  | nil => rfl
  | cons a t ih =>
    simp only [List.all_cons, Bool.and_eq_true] at h
    rw [List.dropWhile_cons, if_pos h.1, ih h.2]

theorem dropW_append_all {p : Char → Bool} {w x : Str}
    (hw : w.all p = true) : (w ++ x).dropWhile p = x.dropWhile p :=
  List.dropWhile_append_of_pos (fun a ha => List.all_eq_true.mp hw a ha)

theorem takeW_append_all {p : Char → Bool} {w x : Str}
    (hw : w.all p = true) : (w ++ x).takeWhile p = w ++ x.takeWhile p :=
  List.takeWhile_append_of_pos (fun a ha => List.all_eq_true.mp hw a ha)

theorem oreSplit (oc : Char) (ot rest : Str) (hoc : isAZ oc = true)
    (hot : ot.all isAZ = true)
    (hrest : ∀ rh, rest.head? = some rh → isAZ rh = false) :
    (oc :: (ot ++ rest)).takeWhile isAZ = oc :: ot ∧
    (oc :: (ot ++ rest)).dropWhile isAZ = rest := by
  have hrtw : rest.takeWhile isAZ = [] := by
    cases rest with
    | nil => rfl
    | cons rh rt =>
      rw [List.takeWhile_cons, if_neg (by simp [hrest rh rfl])]
  have hrdw : rest.dropWhile isAZ = rest := by
    cases rest with
    | nil => rfl
    | cons rh rt =>
      rw [List.dropWhile_cons, if_neg (by simp [hrest rh rfl])]
  constructor
  · rw [List.takeWhile_cons, if_pos hoc, takeW_append_all hot, hrtw,
      List.append_nil]
  · rw [List.dropWhile_cons, if_pos hoc, dropW_append_all hot, hrdw]

theorem stripSizes_cons (x : Str) (o : Option Str) (l : List OreEntry) :
    stripSizes ((x, o) :: l) = (x, o.map pyStrip) :: stripSizes l := rfl

theorem parse_render_rt :
    ∀ (es : List OreEntry) (e : OreEntry) (w : Str),
      w.all (fun ch => !isAZ ch) = true →
      (∀ e' ∈ e :: es, e'.1 ≠ [] ∧ e'.1.all isAZ = true ∧
        ∀ sz, e'.2 = some sz →
          sz.all (fun ch => !(ch = ',')) = true ∧ pyStrip sz = sz) →
      (∀ eL, (e :: es).getLast? = some eL → eL.2 ≠ some []) →
      stripSizes (parseOres (w ++ (renderEntry e ++ renderRest es))) =
        e :: es := by
  intro es
  induction es with
  | nil =>
    intro e w hw hok hlast
    obtain ⟨hne, haz, hszf⟩ := hok e (List.mem_cons_self e [])
    obtain ⟨oc, ot, hoe⟩ : ∃ oc ot, e.1 = oc :: ot := by
      cases h : e.1 with
      | nil => exact absurd h hne
      | cons a b => exact ⟨a, b, rfl⟩
    have hoc : isAZ oc = true := by
      have := haz
      rw [hoe, List.all_cons, Bool.and_eq_true] at this
      exact this.1
    have hot : ot.all isAZ = true := by
      have := haz
      rw [hoe, List.all_cons, Bool.and_eq_true] at this
      exact this.2
    cases hsz : e.2 with
    | none =>
      have hshape : w ++ (renderEntry e ++ renderRest []) =
          w ++ (oc :: (ot ++ [])) := by
        simp [renderEntry, renderRest, hoe, hsz]
      rw [hshape]
      have hdrop : (w ++ (oc :: (ot ++ []))).dropWhile
          (fun ch => !isAZ ch) = oc :: (ot ++ []) := by
        rw [dropW_append_all hw, List.dropWhile_cons,
          if_neg (by simp [hoc])]
      have hsplit := oreSplit oc ot [] hoc hot (fun rh h => by cases h)
      have hw2 : ((oc :: (ot ++ [])).dropWhile isAZ).takeWhile pyIsSpace
          = [] := by rw [hsplit.2]; rfl
      rw [parseOres_stepA _ oc (ot ++ []) hdrop hw2, hsplit.1, hsplit.2,
        parseOres_nil [] rfl]
      simp only [stripSizes, List.map_cons, List.map_nil, Option.map_none']
      rw [← hoe, ← hsz]
    | some sz =>
      have hszne : sz ≠ [] := by
        intro h0
        subst h0
        exact absurd hsz (hlast e rfl)
      obtain ⟨szh, szt, hsze⟩ : ∃ szh szt, sz = szh :: szt := by
        cases h : sz with
        | nil => exact absurd h hszne
        | cons a b => exact ⟨a, b, rfl⟩
      obtain ⟨hszcomma, hszstrip⟩ := hszf sz hsz
      have hszh : pyIsSpace szh = false := by
        have := pyStrip_head_not_space sz
        rw [hszstrip] at this
        exact this szh (by rw [hsze]; rfl)
      have hszhaz : isAZ ' ' = false := by decide
      have hshape : w ++ (renderEntry e ++ renderRest []) =
          w ++ (oc :: (ot ++ (' ' :: sz))) := by
        simp [renderEntry, renderRest, hoe, hsz]
      rw [hshape]
      have hdrop : (w ++ (oc :: (ot ++ (' ' :: sz)))).dropWhile
          (fun ch => !isAZ ch) = oc :: (ot ++ (' ' :: sz)) := by
        rw [dropW_append_all hw, List.dropWhile_cons,
          if_neg (by simp [hoc])]
      have hsplit := oreSplit oc ot (' ' :: sz) hoc hot
        (fun rh h => by injection h with h; rw [← h]; decide)
      have hw2 : ((oc :: (ot ++ (' ' :: sz))).dropWhile isAZ).takeWhile
          pyIsSpace = ' ' :: [] := by
        rw [hsplit.2, List.takeWhile_cons, if_pos (by decide), hsze,
          List.takeWhile_cons, if_neg (by simp [hszh])]
      have hv : ((oc :: (ot ++ (' ' :: sz))).dropWhile isAZ).dropWhile
          pyIsSpace = szh :: szt := by
        rw [hsplit.2, List.dropWhile_cons, if_pos (by decide), hsze,
          List.dropWhile_cons, if_neg (by simp [hszh])]
      have hszhc : szh ≠ ',' := by
        have := hszcomma
        rw [hsze, List.all_cons, Bool.and_eq_true] at this
        simpa using this.1
      rw [parseOres_stepD _ oc (ot ++ (' ' :: sz)) szh szt hdrop
        (by rw [hw2]; simp) hv hszhc, hsplit.1]
      have htk : (szh :: szt).takeWhile (fun e => !(e = ',')) =
          szh :: szt := takeWhile_all_eq (by rw [← hsze]; exact hszcomma)
      have hdk : (szh :: szt).dropWhile (fun e => !(e = ',')) = [] :=
        dropWhile_all_nil (by rw [← hsze]; exact hszcomma)
      rw [htk, hdk, List.drop_nil, parseOres_nil [] rfl]
      simp only [stripSizes, List.map_cons, List.map_nil, Option.map_some']
      rw [← hsze, hszstrip, ← hoe, ← hsz]
  | cons e2 es' ih =>
    intro e w hw hok hlast
    obtain ⟨hne, haz, hszf⟩ := hok e (List.mem_cons_self e (e2 :: es'))
    obtain ⟨oc, ot, hoe⟩ : ∃ oc ot, e.1 = oc :: ot := by
      cases h : e.1 with
      | nil => exact absurd h hne
      | cons a b => exact ⟨a, b, rfl⟩
    have hoc : isAZ oc = true := by
      have := haz
      rw [hoe, List.all_cons, Bool.and_eq_true] at this
      exact this.1
    have hot : ot.all isAZ = true := by
      have := haz
      rw [hoe, List.all_cons, Bool.and_eq_true] at this
      exact this.2
    have hok2 : ∀ e' ∈ e2 :: es', e'.1 ≠ [] ∧ e'.1.all isAZ = true ∧
        ∀ sz, e'.2 = some sz →
          sz.all (fun ch => !(ch = ',')) = true ∧ pyStrip sz = sz :=
      fun e' he' => hok e' (List.mem_cons_of_mem e he')
    have hlast2 : ∀ eL, (e2 :: es').getLast? = some eL → eL.2 ≠ some [] :=
      fun eL hL => hlast eL (by rw [List.getLast?_cons_cons]; exact hL)
    have hX : renderRest (e2 :: es') =
        ' ' :: ',' :: ' ' :: (renderEntry e2 ++ renderRest es') := by
      simp [renderRest, List.flatMap_cons]
    cases hsz : e.2 with
    | none =>
      have hshape : w ++ (renderEntry e ++ renderRest (e2 :: es')) =
          w ++ (oc :: (ot ++ (' ' :: ',' :: ' ' ::
            (renderEntry e2 ++ renderRest es')))) := by
        simp [renderEntry, hoe, hsz, hX]
      rw [hshape]
      have hdrop : (w ++ (oc :: (ot ++ (' ' :: ',' :: ' ' ::
          (renderEntry e2 ++ renderRest es'))))).dropWhile
          (fun ch => !isAZ ch) = oc :: (ot ++ (' ' :: ',' :: ' ' ::
          (renderEntry e2 ++ renderRest es'))) := by
        rw [dropW_append_all hw, List.dropWhile_cons,
          if_neg (by simp [hoc])]
      have hsplit := oreSplit oc ot (' ' :: ',' :: ' ' ::
          (renderEntry e2 ++ renderRest es')) hoc hot
        (fun rh h => by injection h with h; rw [← h]; decide)
      have hw2 : ((oc :: (ot ++ (' ' :: ',' :: ' ' ::
          (renderEntry e2 ++ renderRest es')))).dropWhile isAZ).takeWhile
          pyIsSpace = ' ' :: [] := by
        rw [hsplit.2, List.takeWhile_cons, if_pos (by decide),
          List.takeWhile_cons, if_neg (by decide)]
      have hv : ((oc :: (ot ++ (' ' :: ',' :: ' ' ::
          (renderEntry e2 ++ renderRest es')))).dropWhile isAZ).dropWhile
          pyIsSpace = ',' :: (' ' :: (renderEntry e2 ++ renderRest es')) := by
        rw [hsplit.2, List.dropWhile_cons, if_pos (by decide),
          List.dropWhile_cons, if_neg (by decide)]
      rw [parseOres_stepC1 _ oc (ot ++ (' ' :: ',' :: ' ' ::
          (renderEntry e2 ++ renderRest es')))
          (' ' :: (renderEntry e2 ++ renderRest es'))
          hdrop (by rw [hw2]; simp) hv (by rw [hw2]; simp), hsplit.1,
        hsplit.2]
      have harg : ' ' :: ',' :: ' ' :: (renderEntry e2 ++ renderRest es') =
          [' ', ',', ' '] ++ (renderEntry e2 ++ renderRest es') := rfl
      rw [harg, stripSizes_cons, ih e2 [' ', ',', ' '] (by decide) hok2 hlast2]
      simp only [Option.map_none']
      rw [← hoe, ← hsz]
    | some sz =>
      obtain ⟨hszcomma, hszstrip⟩ := hszf sz hsz
      by_cases hszemp : sz = []
      · subst hszemp
        have hshape : w ++ (renderEntry e ++ renderRest (e2 :: es')) =
            w ++ (oc :: (ot ++ (' ' :: ' ' :: ',' :: ' ' ::
              (renderEntry e2 ++ renderRest es')))) := by
          simp [renderEntry, hoe, hsz, hX]
        rw [hshape]
        have hdrop : (w ++ (oc :: (ot ++ (' ' :: ' ' :: ',' :: ' ' ::
            (renderEntry e2 ++ renderRest es'))))).dropWhile
            (fun ch => !isAZ ch) = oc :: (ot ++ (' ' :: ' ' :: ',' :: ' ' ::
            (renderEntry e2 ++ renderRest es'))) := by
          rw [dropW_append_all hw, List.dropWhile_cons,
            if_neg (by simp [hoc])]
        have hsplit := oreSplit oc ot (' ' :: ' ' :: ',' :: ' ' ::
            (renderEntry e2 ++ renderRest es')) hoc hot
          (fun rh h => by injection h with h; rw [← h]; decide)
        have hw2 : ((oc :: (ot ++ (' ' :: ' ' :: ',' :: ' ' ::
            (renderEntry e2 ++ renderRest es')))).dropWhile isAZ).takeWhile
            pyIsSpace = ' ' :: ' ' :: [] := by
          rw [hsplit.2, List.takeWhile_cons, if_pos (by decide),
            List.takeWhile_cons, if_pos (by decide),
            List.takeWhile_cons, if_neg (by decide)]
        have hv : ((oc :: (ot ++ (' ' :: ' ' :: ',' :: ' ' ::
            (renderEntry e2 ++ renderRest es')))).dropWhile isAZ).dropWhile
            pyIsSpace = ',' :: (' ' :: (renderEntry e2 ++ renderRest es')) := by
          rw [hsplit.2, List.dropWhile_cons, if_pos (by decide),
            List.dropWhile_cons, if_pos (by decide),
            List.dropWhile_cons, if_neg (by decide)]
        rw [parseOres_stepC _ oc (ot ++ (' ' :: ' ' :: ',' :: ' ' ::
            (renderEntry e2 ++ renderRest es')))
            (' ' :: (renderEntry e2 ++ renderRest es'))
            hdrop (by rw [hw2]; simp) hv (by rw [hw2]; simp), hsplit.1]
        have harg : (' ' :: (renderEntry e2 ++ renderRest es')) =
            [' '] ++ (renderEntry e2 ++ renderRest es') := rfl
        rw [hw2, harg, stripSizes_cons, ih e2 [' '] (by decide) hok2 hlast2]
        simp only [Option.map_some']
        have he : e = (e.1, some ([] : Str)) := by rw [← hsz]
        rw [← hoe]
        rw [show (e :: e2 :: es' : List OreEntry) =
          (e.1, some ([] : Str)) :: e2 :: es' from by rw [← he]]
        rfl
      · obtain ⟨szh, szt, hsze⟩ : ∃ szh szt, sz = szh :: szt := by
          cases h : sz with
          | nil => exact absurd h hszemp
          | cons a b => exact ⟨a, b, rfl⟩
        have hszh : pyIsSpace szh = false := by
          have := pyStrip_head_not_space sz
          rw [hszstrip] at this
          exact this szh (by rw [hsze]; rfl)
        have hszhc : szh ≠ ',' := by
          have := hszcomma
          rw [hsze, List.all_cons, Bool.and_eq_true] at this
          simpa using this.1
        have hshape : w ++ (renderEntry e ++ renderRest (e2 :: es')) =
            w ++ (oc :: (ot ++ (' ' :: (sz ++ (' ' :: ',' :: ' ' ::
              (renderEntry e2 ++ renderRest es')))))) := by
          simp [renderEntry, hoe, hsz, hX]
        rw [hshape]
        have hdrop : (w ++ (oc :: (ot ++ (' ' :: (sz ++ (' ' :: ',' :: ' ' ::
            (renderEntry e2 ++ renderRest es'))))))).dropWhile
            (fun ch => !isAZ ch) = oc :: (ot ++ (' ' :: (sz ++
            (' ' :: ',' :: ' ' :: (renderEntry e2 ++ renderRest es'))))) := by
          rw [dropW_append_all hw, List.dropWhile_cons,
            if_neg (by simp [hoc])]
        have hsplit := oreSplit oc ot (' ' :: (sz ++ (' ' :: ',' :: ' ' ::
            (renderEntry e2 ++ renderRest es')))) hoc hot
          (fun rh h => by injection h with h; rw [← h]; decide)
        have hw2 : ((oc :: (ot ++ (' ' :: (sz ++ (' ' :: ',' :: ' ' ::
            (renderEntry e2 ++ renderRest es')))))).dropWhile
            isAZ).takeWhile pyIsSpace = ' ' :: [] := by
          rw [hsplit.2, List.takeWhile_cons, if_pos (by decide), hsze,
            List.cons_append, List.takeWhile_cons, if_neg (by simp [hszh])]
        have hv : ((oc :: (ot ++ (' ' :: (sz ++ (' ' :: ',' :: ' ' ::
            (renderEntry e2 ++ renderRest es')))))).dropWhile
            isAZ).dropWhile pyIsSpace = szh :: (szt ++ (' ' :: ',' :: ' ' ::
            (renderEntry e2 ++ renderRest es'))) := by
          rw [hsplit.2, List.dropWhile_cons, if_pos (by decide), hsze,
            List.cons_append, List.dropWhile_cons, if_neg (by simp [hszh])]
        rw [parseOres_stepD _ oc (ot ++ (' ' :: (sz ++ (' ' :: ',' :: ' ' ::
            (renderEntry e2 ++ renderRest es'))))) szh
            (szt ++ (' ' :: ',' :: ' ' :: (renderEntry e2 ++ renderRest es')))
            hdrop (by rw [hw2]; simp) hv hszhc, hsplit.1]
        have hsc : szh :: (szt ++ (' ' :: ',' :: ' ' ::
            (renderEntry e2 ++ renderRest es'))) =
            sz ++ (' ' :: ',' :: ' ' ::
              (renderEntry e2 ++ renderRest es')) := by
          rw [hsze, List.cons_append]
        have htk : (szh :: (szt ++ (' ' :: ',' :: ' ' ::
            (renderEntry e2 ++ renderRest es')))).takeWhile
            (fun e => !(e = ',')) = sz ++ [' '] := by
          rw [hsc, takeW_append_all hszcomma, List.takeWhile_cons,
            if_pos (by decide), List.takeWhile_cons, if_neg (by simp)]
        have hdk : (szh :: (szt ++ (' ' :: ',' :: ' ' ::
            (renderEntry e2 ++ renderRest es')))).dropWhile
            (fun e => !(e = ',')) = ',' :: ' ' ::
              (renderEntry e2 ++ renderRest es') := by
          rw [hsc, dropW_append_all hszcomma, List.dropWhile_cons,
            if_pos (by decide), List.dropWhile_cons, if_neg (by simp)]
        rw [htk, hdk]
        have harg : (',' :: ' ' :: (renderEntry e2 ++
            renderRest es')).drop 1 =
            [' '] ++ (renderEntry e2 ++ renderRest es') := rfl
        rw [harg, stripSizes_cons, ih e2 [' '] (by decide) hok2 hlast2]
        simp only [Option.map_some']
        have hstripapp : pyStrip (sz ++ [' ']) = sz := by
          rw [pyStrip_append_ws sz ' ' (by decide) ?_, hszstrip]
          intro d hd
          have := pyStrip_head_not_space sz
          rw [hszstrip] at this
          exact this d hd
        rw [hstripapp, ← hoe, ← hsz]

theorem isAZ_all_not_space {s : Str} (h : s.all isAZ = true) :
    s.all (fun c => !pyIsSpace c) = true := by
  apply all_implies ?_ s h
  intro c hc
  simp [isAZ_not_space c hc]

theorem sectorOresMatch_append (s : Str) (bc : Char) (bt : Str)
    (hne : s ≠ []) (haz : s.all isAZ = true) (hbc : pyIsSpace bc = false) :
    sectorOresMatch (s ++ ' ' :: bc :: bt) = some (s, lazyCore (bc :: bt)) := by
  obtain ⟨sc, st, hs⟩ : ∃ sc st, s = sc :: st := by
    cases h : s with
    | nil => exact absurd h hne
    | cons a b => exact ⟨a, b, rfl⟩
  have hscaz : isAZ sc = true := by
    have := haz
    rw [hs, List.all_cons, Bool.and_eq_true] at this
    exact this.1
  have hnws : s.all (fun c => !pyIsSpace c) = true := isAZ_all_not_space haz
  unfold sectorOresMatch
  have h1 : (s ++ ' ' :: bc :: bt).dropWhile pyIsSpace =
      s ++ ' ' :: bc :: bt := by
    rw [hs, List.cons_append, List.dropWhile_cons,
      if_neg (by simp [isAZ_not_space sc hscaz])]
  have h2 : (s ++ ' ' :: bc :: bt).takeWhile (fun c => !pyIsSpace c) = s := by
    rw [takeW_append_all hnws, List.takeWhile_cons, if_neg (by decide),
      List.append_nil]
  have h3 : (s ++ ' ' :: bc :: bt).dropWhile (fun c => !pyIsSpace c) =
      ' ' :: bc :: bt := by
    rw [dropW_append_all hnws, List.dropWhile_cons, if_neg (by decide)]
  have h4 : (' ' :: bc :: bt).takeWhile pyIsSpace = [' '] := by
    rw [List.takeWhile_cons, if_pos (by decide), List.takeWhile_cons,
      if_neg (by simp [hbc])]
  have h5 : (' ' :: bc :: bt).dropWhile pyIsSpace = bc :: bt := by
    rw [List.dropWhile_cons, if_pos (by decide), List.dropWhile_cons,
      if_neg (by simp [hbc])]
  simp only [h1, h2, h3, h4, h5]
  rw [if_neg (by simp [hs]), if_neg (by simp), if_pos (by simp)]

theorem endsWs_append (x y : Str) (hy : y ≠ []) :
    endsWs (x ++ y) = endsWs y := by
  unfold endsWs
  rw [List.getLast?_append]
  cases hl : y.getLast? with
  | none => exact absurd (List.getLast?_eq_none_iff.mp hl) hy
  | some a => rfl

theorem renderEntry_ne_nil (e : OreEntry) (h : e.1 ≠ []) :
    renderEntry e ≠ [] := by
  unfold renderEntry
  intro h0
  exact h (List.append_eq_nil.mp h0).1

theorem endsWs_renderOres_last :
    ∀ (E' : List OreEntry) (e0 : OreEntry), (∀ e' ∈ e0 :: E', e'.1 ≠ []) →
      ∀ eL, (e0 :: E').getLast? = some eL →
        endsWs (' ' :: (renderEntry e0 ++ renderRest E')) =
          endsWs (renderEntry eL) := by
  intro E'
  induction E' with
  | nil =>
    intro e0 hne eL hL
    have : eL = e0 := by simpa using hL.symm
    subst this
    rw [show renderRest [] = [] from rfl, List.append_nil,
      show (' ' :: renderEntry eL : Str) = [' '] ++ renderEntry eL from rfl]
    exact endsWs_append _ _ (renderEntry_ne_nil eL (hne eL (by simp)))
  | cons e1 E'' ih =>
    intro e0 hne eL hL
    have hL' : (e1 :: E'').getLast? = some eL := by
      rw [List.getLast?_cons_cons] at hL
      exact hL
    have hne' : ∀ e' ∈ e1 :: E'', e'.1 ≠ [] :=
      fun e' he' => hne e' (List.mem_cons_of_mem e0 he')
    have hsplit : (' ' :: (renderEntry e0 ++ renderRest (e1 :: E''))) =
        (' ' :: renderEntry e0 ++ [' ', ',']) ++
          (' ' :: (renderEntry e1 ++ renderRest E'')) := by
      simp [renderRest, List.flatMap_cons]
    rw [hsplit, endsWs_append _ _ (by simp), ih e1 hne' eL hL']

theorem mergeSort_pair {α : Type} (le : α → α → Bool) (a b : α) :
    [a, b].mergeSort le = if le a b then [a, b] else [b, a] := by
  rw [List.mergeSort]
  simp [List.splitInTwo, List.merge]

theorem pyStrip_all {p : Char → Bool} {s : Str} (h : s.all p = true) :
    (pyStrip s).all p = true := by
  unfold pyStrip
  rw [List.all_reverse]
  apply all_of_sublist (List.dropWhile_sublist _)
  rw [List.all_reverse]
  exact all_of_sublist (List.dropWhile_sublist _) h

theorem renderEntry_all {p : Char → Bool} (hsp : p ' ' = true)
    (e : OreEntry) (h1 : e.1.all p = true)
    (h2 : ∀ sz, e.2 = some sz → sz.all p = true) :
    (renderEntry e).all p = true := by
  unfold renderEntry
  rw [List.all_append, h1, Bool.true_and]
  cases hsz : e.2 with
  | none => rfl
  | some sz =>
    rw [List.all_cons, hsp, Bool.true_and]
    exact h2 sz hsz

theorem renderRest_all {p : Char → Bool} (hsp : p ' ' = true)
    (hcm : p ',' = true) :
    ∀ (es : List OreEntry), (∀ e' ∈ es, e'.1.all p = true ∧
      ∀ sz, e'.2 = some sz → sz.all p = true) →
      (renderRest es).all p = true := by
  intro es
  induction es with
  | nil => intro _; rfl
  | cons e es' ih =>
    intro h
    obtain ⟨h1, h2⟩ := h e (List.mem_cons_self e es')
    have hrest := ih (fun e' he' => h e' (List.mem_cons_of_mem e he'))
    rw [show renderRest (e :: es') =
      ' ' :: ',' :: ' ' :: renderEntry e ++ renderRest es' from by
        simp [renderRest, List.flatMap_cons]]
    simp only [List.all_cons, List.all_append, hsp, hcm, hrest,
      Bool.true_and, Bool.and_true]
    exact renderEntry_all hsp e h1 h2

theorem renderOres_all {p : Char → Bool} (hsp : p ' ' = true)
    (hcm : p ',' = true) (es : List OreEntry)
    (h : ∀ e' ∈ es, e'.1.all p = true ∧
      ∀ sz, e'.2 = some sz → sz.all p = true) :
    (renderOres es).all p = true := by
  cases es with
  | nil => rfl
  | cons e es' =>
    obtain ⟨h1, h2⟩ := h e (List.mem_cons_self e es')
    rw [renderOres]
    simp only [List.all_cons, List.all_append, hsp, Bool.true_and]
    rw [renderEntry_all hsp e h1 h2, Bool.true_and]
    exact renderRest_all hsp hcm es'
      (fun e' he' => h e' (List.mem_cons_of_mem e he'))

theorem normalize_render_roundtrip (s : Str) (E : List OreEntry)
    (hs : s ∈ sectorAbbrs)
    (hok : ∀ e' ∈ E, e'.1 ≠ [] ∧ e'.1.all isAZ = true ∧
      e'.1.all (fun c => upChar c = c) = true ∧ e'.1 ∈ ORES ∧
      ∀ sz, e'.2 = some sz →
        sz.all (fun ch => !(ch = ',')) = true ∧ pyStrip sz = sz ∧
        sz.all (fun c => upChar c = c) = true)
    (hsorted : E.Pairwise
      (fun a b => decide (ORES.indexOf a.1 ≤ ORES.indexOf b.1) = true))
    (hEne : E ≠ [])
    (hws : endsWs (s ++ renderOres E) = false)
    (hud : hasUDTail (s ++ renderOres E) = false) :
    normalize_name ORES sectorAbbrs (s ++ renderOres E) s =
      some (s ++ renderOres E) := by
  obtain ⟨hs_ne, hs_az, hs_nore⟩ := sectorAbbr_facts s hs
  have hs_up : upStr s = s := upStr_eq_self s
    (all_implies (fun c hc => by simp [upChar_of_isAZ c hc]) s hs_az)
  obtain ⟨e0, E', hE⟩ : ∃ e0 E', E = e0 :: E' := by
    cases h : E with
    | nil => exact absurd h hEne
    | cons a b => exact ⟨a, b, rfl⟩
  subst hE
  obtain ⟨h0ne, h0az, h0up, h0mem, h0sz⟩ := hok e0 (List.mem_cons_self _ _)
  obtain ⟨oc, ot, hoe⟩ : ∃ oc ot, e0.1 = oc :: ot := by
    cases h : e0.1 with
    | nil => exact absurd h h0ne
    | cons a b => exact ⟨a, b, rfl⟩
  have hoc : isAZ oc = true := by
    have := h0az
    rw [hoe, List.all_cons, Bool.and_eq_true] at this
    exact this.1
  have hT : renderOres (e0 :: E') =
      ' ' :: (renderEntry e0 ++ renderRest E') := rfl
  obtain ⟨bt, hbt⟩ : ∃ bt, renderEntry e0 ++ renderRest E' = oc :: bt := by
    refine ⟨(ot ++ (match e0.2 with
      | some sz => ' ' :: sz
      | none => [])) ++ renderRest E', ?_⟩
    unfold renderEntry
    rw [hoe]
    simp
  have hmatch : sectorOresMatch (s ++ renderOres (e0 :: E')) =
      some (s, lazyCore (oc :: bt)) := by
    rw [hT, hbt]
    exact sectorOresMatch_append s oc bt hs_ne hs_az (isAZ_not_space oc hoc)
  have hudT : hasUDTail bt = false := by
    have h1 : s ++ renderOres (e0 :: E') = (s ++ [' ']) ++ (oc :: bt) := by
      rw [hT, hbt]
      simp
    have h2 := hasUDTail_append_false (s ++ [' ']) (oc :: bt)
      (by rw [← h1]; exact hud)
    exact (hasUDTail_cons_false h2).2
  have hlc : lazyCore (oc :: bt) = oc :: bt := lazyCore_eq_self oc bt hudT
  have hTup : (oc :: bt).all (fun c => upChar c = c) = true := by
    rw [← hbt]
    have hall : (renderOres (e0 :: E')).all (fun c => upChar c = c) = true :=
      renderOres_all (by decide) (by decide) (e0 :: E')
        (fun e' he' => ⟨(hok e' he').2.2.1,
          fun sz hsz => ((hok e' he').2.2.2.2 sz hsz).2.2⟩)
    rw [hT, List.all_cons] at hall
    simp only [Bool.and_eq_true] at hall
    exact hall.2
  have hlastE : ∀ eL, (e0 :: E').getLast? = some eL → eL.2 ≠ some [] := by
    intro eL hL heq
    have hnes : ∀ e' ∈ e0 :: E', e'.1 ≠ [] := fun e' he' => (hok e' he').1
    have hEws := endsWs_renderOres_last E' e0 hnes eL hL
    have h1 : endsWs (s ++ renderOres (e0 :: E')) =
        endsWs (renderOres (e0 :: E')) :=
      endsWs_append _ _ (by rw [hT]; simp)
    have hws' := hws
    rw [h1, hT, hEws] at hws'
    have hre : renderEntry eL = eL.1 ++ [' '] := by
      unfold renderEntry
      rw [heq]
    rw [hre, endsWs_append _ _ (by simp)] at hws'
    exact absurd hws' (by decide)
  have hparse : stripSizes (parseOres (oc :: bt)) = e0 :: E' := by
    have h := parse_render_rt E' e0 [] (by decide)
      (fun e' he' => ⟨(hok e' he').1, (hok e' he').2.1,
        fun sz hsz => ⟨((hok e' he').2.2.2.2 sz hsz).1,
          ((hok e' he').2.2.2.2 sz hsz).2.1⟩⟩)
      hlastE
    rw [List.nil_append] at h
    rw [← hbt]
    exact h
  have hval : (e0 :: E').all (fun e => decide (e.1 ∈ ORES)) = true := by
    rw [List.all_eq_true]
    intro e' he'
    simp only [decide_eq_true_eq]
    exact (hok e' he').2.2.2.1
  rw [normalize_name, hmatch]
  dsimp only
  rw [hs_up]
  rw [if_pos (Or.inr (by simp [valid_sector, hs]))]
  rw [if_neg hs_nore]
  rw [hlc, upStr_eq_self _ hTup, hparse]
  rw [if_pos hval,
    show sortEntries ORES (e0 :: E') = e0 :: E' from
      List.mergeSort_of_sorted hsorted]

/-- C5: `normalize_name` is not idempotent in general, but it is on every
successful result `r` (for a zone argument drawn from the `SECTORS` table)
that still plays the role of a fresh label without the degenerate
features: `r` differs from the bare zone (at least one ore was parsed),
`r` does not end in whitespace, and `r` does not end in an `_\d+` tail
(which the sector regex would strip on the second pass). -/
theorem c5_conditional_idempotence (l s r : Str)
    (hs : s ∈ sectorAbbrs)
    (h1 : normalize_name ORES sectorAbbrs l s = some r)
    (hrs : r ≠ s)
    (hws : endsWs r = false)
    (hud : hasUDTail r = false) :
    normalize_name ORES sectorAbbrs r s = some r := by
  rw [normalize_name] at h1
  cases hm : sectorOresMatch l with
  | none =>
    rw [hm] at h1
    cases h1
  | some p =>
    obtain ⟨s0, oresRaw⟩ := p
    rw [hm] at h1
    dsimp only at h1
    by_cases hcond : upStr s0 ∈ ORES ∨
        valid_sector sectorAbbrs (upStr s0) = true
    · rw [if_pos hcond] at h1
      by_cases hall : (stripSizes (parseOres
          (if upStr s0 ∈ ORES then upStr s0 ++ ' ' :: upStr oresRaw
           else upStr oresRaw))).all (fun e => decide (e.1 ∈ ORES)) = true
      · rw [if_pos hall] at h1
        injection h1 with h1
        subst h1
        have hOTup : (if upStr s0 ∈ ORES then
            upStr s0 ++ ' ' :: upStr oresRaw
            else upStr oresRaw).all (fun c => upChar c = c) = true := by
          by_cases hmem : upStr s0 ∈ ORES
          · rw [if_pos hmem, List.all_append, List.all_cons]
            simp only [upStr_all_upfix, Bool.and_eq_true]
            exact ⟨trivial, by decide, trivial⟩
          · rw [if_neg hmem]
            exact upStr_all_upfix oresRaw
        refine normalize_render_roundtrip s _ hs ?_ ?_ ?_ hws hud
        · intro e' he'
          have hperm := List.mergeSort_perm (stripSizes (parseOres
            (if upStr s0 ∈ ORES then upStr s0 ++ ' ' :: upStr oresRaw
             else upStr oresRaw)))
            (fun a b => decide (ORES.indexOf a.1 ≤ ORES.indexOf b.1))
          have hes : e' ∈ stripSizes (parseOres
              (if upStr s0 ∈ ORES then upStr s0 ++ ' ' :: upStr oresRaw
               else upStr oresRaw)) := hperm.subset he'
          have hmem2 : decide (e'.1 ∈ ORES) = true := by
            rw [List.all_eq_true] at hall
            exact hall e' hes
          obtain ⟨e0, he0, he'eq⟩ := List.mem_map.mp hes
          obtain ⟨f1, f2, f3, f4⟩ := parseOres_facts (fun c => upChar c = c)
            ((if upStr s0 ∈ ORES then upStr s0 ++ ' ' :: upStr oresRaw
              else upStr oresRaw).length) _ le_rfl e0 he0
          subst he'eq
          dsimp only at hmem2 ⊢
          refine ⟨f1, f2, f3 hOTup, of_decide_eq_true hmem2, ?_⟩
          intro sz hsz
          cases hraw : e0.2 with
          | none =>
            rw [hraw] at hsz
            cases hsz
          | some raw =>
            rw [hraw] at hsz
            simp only [Option.map_some', Option.some.injEq] at hsz
            subst hsz
            refine ⟨?_, pyStrip_idem raw, ?_⟩
            · exact pyStrip_all (f4 raw hraw).1
            · exact pyStrip_all ((f4 raw hraw).2 hOTup)
        · have htransE : ∀ a b c : OreEntry,
              decide (ORES.indexOf a.1 ≤ ORES.indexOf b.1) = true →
              decide (ORES.indexOf b.1 ≤ ORES.indexOf c.1) = true →
              decide (ORES.indexOf a.1 ≤ ORES.indexOf c.1) = true := by
            intro a b c hab hbc
            simp only [decide_eq_true_eq] at hab hbc ⊢
            omega
          have htotalE : ∀ a b : OreEntry,
              (decide (ORES.indexOf a.1 ≤ ORES.indexOf b.1) ||
               decide (ORES.indexOf b.1 ≤ ORES.indexOf a.1)) = true := by
            intro a b
            simp only [Bool.or_eq_true, decide_eq_true_eq]
            omega
          exact @List.sorted_mergeSort OreEntry
            (fun a b => decide (ORES.indexOf a.1 ≤ ORES.indexOf b.1))
            htransE htotalE (stripSizes (parseOres
              (if upStr s0 ∈ ORES then upStr s0 ++ ' ' :: upStr oresRaw
               else upStr oresRaw)))
        · intro h0
          apply hrs
          rw [h0, show renderOres ([] : List OreEntry) = [] from rfl,
            List.append_nil]
      · rw [if_neg hall] at h1
        cases h1
    · rw [if_neg hcond] at h1
      cases h1

theorem normalize_c5w_eval :
    normalize_name ORES sectorAbbrs "ZS fe".data "ZS".data =
      some "ZS FE".data := by
  have h1 : sectorOresMatch "ZS fe".data =
      some ("ZS".data, "fe".data) := by decide
  rw [normalize_name, h1]
  dsimp only
  rw [if_pos (Or.inr (by decide))]
  rw [if_neg (show ¬ (upStr ['Z','S'] ∈ ORES) from by decide)]
  rw [show upStr ['f','e'] = ['F','E'] from by decide]
  rw [parseOres_stepA ['F','E'] 'F' ['E'] (by decide) (by decide)]
  rw [parseOres_nil _ (by decide)]
  rw [show stripSizes [((('F' :: ['E']).takeWhile isAZ),
      (none : Option Str))] = [(['F','E'], (none : Option Str))] from
    by decide]
  rw [show sortEntries ORES [(['F','E'], (none : Option Str))] =
    [(['F','E'], (none : Option Str))] from List.mergeSort_singleton _]
  decide

theorem normalize_c5cex_eval1 :
    normalize_name ORES sectorAbbrs "ZS FE X_3 , U".data "ZS".data =
      some "ZS U , FE X_3".data := by
  have h1 : sectorOresMatch "ZS FE X_3 , U".data =
      some ("ZS".data, "FE X_3 , U".data) := by decide
  have hp : parseOres ['F','E',' ','X','_','3',' ',',',' ','U'] =
      [(['F','E'], some ['X','_','3',' ']), (['U'], none)] := by
    rw [parseOres_stepD ['F','E',' ','X','_','3',' ',',',' ','U'] 'F'
      ['E',' ','X','_','3',' ',',',' ','U'] 'X' ['_','3',' ',',',' ','U']
      (by decide) (by decide) (by decide) (by decide)]
    rw [parseOres_stepA _ 'U' [] (by decide) (by decide)]
    rw [parseOres_nil _ (by decide)]
    decide
  rw [normalize_name, h1]
  dsimp only
  rw [if_pos (Or.inr (by decide))]
  rw [if_neg (show ¬ (upStr ['Z','S'] ∈ ORES) from by decide)]
  rw [show upStr ['F','E',' ','X','_','3',' ',',',' ','U'] =
    ['F','E',' ','X','_','3',' ',',',' ','U'] from by decide]
  rw [hp]
  rw [show stripSizes [(['F','E'], some ['X','_','3',' ']),
      (['U'], (none : Option Str))] =
    [(['F','E'], some ['X','_','3']), (['U'], (none : Option Str))] from
    by decide]
  rw [show sortEntries ORES [(['F','E'], some ['X','_','3']),
      (['U'], (none : Option Str))] =
    [(['U'], (none : Option Str)), (['F','E'], some ['X','_','3'])] from by
      unfold sortEntries
      rw [mergeSort_pair, if_neg (by decide)]]
  decide

theorem normalize_c5cex_eval2 :
    normalize_name ORES sectorAbbrs "ZS U , FE X_3".data "ZS".data =
      some "ZS U , FE X".data := by
  have h1 : sectorOresMatch "ZS U , FE X_3".data =
      some ("ZS".data, ['U',' ',',',' ','F','E',' ','X']) := by decide
  have hp : parseOres ['U',' ',',',' ','F','E',' ','X'] =
      [(['U'], none), (['F','E'], some ['X'])] := by
    rw [parseOres_stepC1 ['U',' ',',',' ','F','E',' ','X'] 'U'
      [' ',',',' ','F','E',' ','X'] [' ','F','E',' ','X']
      (by decide) (by decide) (by decide) (by decide)]
    rw [parseOres_stepD _ 'F' ['E',' ','X'] 'X' []
      (by decide) (by decide) (by decide) (by decide)]
    rw [parseOres_nil _ (by decide)]
    decide
  rw [normalize_name, h1]
  dsimp only
  rw [if_pos (Or.inr (by decide))]
  rw [if_neg (show ¬ (upStr ['Z','S'] ∈ ORES) from by decide)]
  rw [show upStr ['U',' ',',',' ','F','E',' ','X'] =
    ['U',' ',',',' ','F','E',' ','X'] from by decide]
  rw [hp]
  rw [show stripSizes [(['U'], (none : Option Str)),
      (['F','E'], some ['X'])] =
    [(['U'], (none : Option Str)), (['F','E'], some ['X'])] from by decide]
  rw [show sortEntries ORES [(['U'], (none : Option Str)),
      (['F','E'], some ['X'])] =
    [(['U'], (none : Option Str)), (['F','E'], some ['X'])] from by
      unfold sortEntries
      rw [mergeSort_pair, if_pos (by decide)]]
  decide

theorem c5_underscore_suffix_counterexample :
    normalize_name ORES sectorAbbrs "ZS FE X_3 , U".data "ZS".data =
      some "ZS U , FE X_3".data ∧
    normalize_name ORES sectorAbbrs "ZS U , FE X_3".data "ZS".data =
      some "ZS U , FE X".data ∧
    some "ZS U , FE X".data ≠ some "ZS U , FE X_3".data :=
  ⟨normalize_c5cex_eval1, normalize_c5cex_eval2, by decide⟩

theorem c5_conditional_idempotence_witness :
    (("ZS".data ∈ sectorAbbrs) ∧
      "ZS FE".data ≠ "ZS".data ∧ endsWs "ZS FE".data = false ∧
      hasUDTail "ZS FE".data = false) ∧
    normalize_name ORES sectorAbbrs "ZS FE".data "ZS".data =
      some "ZS FE".data :=
  ⟨⟨by decide, by decide, by decide, by decide⟩,
    c5_conditional_idempotence "ZS fe".data "ZS".data "ZS FE".data
      (by decide) normalize_c5w_eval (by decide) (by decide) (by decide)⟩
